import Mathlib

/-!
Shallow embedding of the GCP adapter-validation engine
(repository `adapter-validation-gcp`) and proofs about it.

The embedding covers:
* the result model and the aggregator `Aggregate`
  (`src/unnamed/part_008`);
* the configuration loader `LoadFromEnv` and its helpers
  (`src/validator/cmd/validator/main.go`, config part);
* the once-guarded lazy client accessors of `Context`
  (`src/validator/pkg/validator/context.go`, `sync.Once` variant);
* the retry helper `retryWithBackoff`
  (`src/validator/pkg/gcp/client.go`);
* the dependency resolver — cycle detection, level assignment, grouping
  (`src/validator/pkg/validator/resolver.go`);
* the executor `ExecuteAll` (`src/unnamed/part_005`).

Go maps keyed by validator name are modelled as association lists with
unique keys (names are unique within a run, spec §3).  Wall-clock fields
(durations, timestamps) carried by results are not read by any of the
verified logic and are omitted from the model.  Where Go map iteration
order is unspecified, the model fixes the input list order; every
property proved here is order-independent.
-/

namespace AdapterValidationGCP

/-! ### Result model and aggregator (src/unnamed/part_008) -/

/-- Outcome of a single validator (Go `Status`: "success" / "failure" /
"skipped"). -/
inductive Status where
  | success
  | failure
  | skipped
deriving DecidableEq, Repr

/-- Per-validator result (Go `Result`).  The free-form `Details` map, the
`Duration` and the `Timestamp` fields are never read by the aggregation
or execution logic verified here and are omitted. -/
structure Result where
  validatorName : String
  status : Status
  reason : String
  message : String
deriving DecidableEq, Repr

/-- The `details` map of the aggregated result.  The Go code stores it as
`map[string]interface{}` with keys `checks_run`, `checks_passed`,
`timestamp`, `validators` and — on the failure branch only —
`failed_checks`; `failedChecks = none` models the absent key.  The
`timestamp` entry (wall clock at aggregation time) is omitted. -/
structure AggDetails where
  checksRun : Nat
  checksPassed : Nat
  validators : List Result
  failedChecks : Option (List String)
deriving DecidableEq, Repr

/-- Aggregated result (Go `AggregatedResult`). -/
structure AggregatedResult where
  status : Status
  reason : String
  message : String
  details : AggDetails
deriving DecidableEq, Repr

/-- One step of the single collection pass of `Aggregate`
(part_008 lines 67-75): the accumulator holds
(checksPassed, failedChecks, failureDescriptions). -/
def aggStep (acc : Nat × List String × List String) (r : Result) :
    Nat × List String × List String :=
  match r.status with
  | .success => (acc.1 + 1, acc.2.1, acc.2.2)
  | .failure =>
      (acc.1, acc.2.1 ++ [r.validatorName],
       acc.2.2 ++ [r.validatorName ++ " (" ++ r.reason ++ ")"])
  | .skipped => acc

/-- `Aggregate` (part_008 lines 60-108).  Note the success condition of the
source is `checksPassed == checksRun` with no emptiness test. -/
def Aggregate (results : List Result) : AggregatedResult :=
  let checksRun := results.length
  let acc := results.foldl aggStep (0, [], [])
  let checksPassed := acc.1
  let failedChecks := acc.2.1
  let failureDescriptions := acc.2.2
  if checksPassed = checksRun then
    { status := .success
      reason := "ValidationPassed"
      message := "All GCP validation checks passed successfully"
      details :=
        { checksRun := checksRun, checksPassed := checksPassed
          validators := results, failedChecks := none } }
  else
    { status := .failure
      reason := "ValidationFailed"
      message :=
        toString failureDescriptions.length ++ " validation check(s) failed: "
          ++ String.intercalate ", " failureDescriptions
          ++ ". Passed: " ++ toString checksPassed ++ "/" ++ toString checksRun
      details :=
        { checksRun := checksRun, checksPassed := checksPassed
          validators := results, failedChecks := some failedChecks } }

/-- The collection pass computes the success count and, in input order, the
names and descriptions of the failing results. -/
theorem aggFold_char (results : List Result) (cp : Nat) (fc fd : List String) :
    results.foldl aggStep (cp, fc, fd) =
      (cp + (results.filter (fun r => r.status = .success)).length,
       fc ++ (results.filter (fun r => r.status = .failure)).map
          (fun r => r.validatorName),
       fd ++ (results.filter (fun r => r.status = .failure)).map
          (fun r => r.validatorName ++ " (" ++ r.reason ++ ")")) := by
  induction results generalizing cp fc fd with
  | nil => simp
  | cons r rs ih =>
    rcases hst : r.status with _ | _ | _ <;>
      simp [List.foldl_cons, aggStep, hst, ih, List.filter_cons,
        Nat.add_comm, Nat.add_assoc, Nat.add_left_comm]

theorem aggFold_char' (results : List Result) :
    results.foldl aggStep (0, [], []) =
      ((results.filter (fun r => r.status = .success)).length,
       (results.filter (fun r => r.status = .failure)).map
          (fun r => r.validatorName),
       (results.filter (fun r => r.status = .failure)).map
          (fun r => r.validatorName ++ " (" ++ r.reason ++ ")")) := by
  simpa using aggFold_char results 0 [] []

/-- C1 counterexample: aggregating the empty result list yields a `success`
aggregate (with `checks_run = 0`), because the source tests only
`checksPassed == checksRun`; the claim required non-success for an empty
list. -/
theorem aggregate_empty_is_success :
    (Aggregate []).status = Status.success ∧
      (Aggregate []).details.checksRun = 0 ∧
      (Aggregate []).details.checksPassed = 0 ∧
      (Aggregate []).reason = "ValidationPassed" := by
  refine ⟨rfl, rfl, rfl, rfl⟩

/-- C1 (amended): `Aggregate` reports `checks_run` equal to the list length
and `checks_passed` equal to the number of results with status success, and
the aggregate status is `success` — with reason "ValidationPassed" and
message "All GCP validation checks passed successfully" — if and only if
every result in the list has status success (in particular the empty list
yields success). -/
theorem aggregate_success_char (results : List Result) :
    (Aggregate results).details.checksRun = results.length ∧
    (Aggregate results).details.checksPassed =
      (results.filter (fun r => r.status = .success)).length ∧
    ((Aggregate results).status = .success ↔
      ∀ r ∈ results, r.status = .success) ∧
    ((Aggregate results).status = .success →
      (Aggregate results).reason = "ValidationPassed" ∧
      (Aggregate results).message =
        "All GCP validation checks passed successfully") := by
  have hpass :
      (results.filter (fun r => r.status = .success)).length = results.length ↔
        ∀ r ∈ results, r.status = .success := by
    rw [← List.countP_eq_length_filter, List.countP_eq_length]
    simp
  by_cases h :
      (results.filter (fun r => r.status = .success)).length = results.length
  · have hall := hpass.mp h
    refine ⟨?_, ?_, ?_, ?_⟩ <;>
      first
        | (simp [Aggregate, aggFold_char', h]; exact hall)
        | simp [Aggregate, aggFold_char', h, hall]
  · have hex : ∃ x ∈ results, ¬x.status = Status.success := by
      by_contra hc
      push_neg at hc
      exact h (hpass.mpr hc)
    refine ⟨?_, ?_, ?_, ?_⟩ <;> simp [Aggregate, aggFold_char', h, hex]

/-- Witness for `aggregate_success_char` at a concrete singleton input. -/
theorem aggregate_success_char_witness :
    (Aggregate [{ validatorName := "a", status := .success,
                  reason := "OK", message := "ok" }]).reason
      = "ValidationPassed" :=
  ((aggregate_success_char
      [{ validatorName := "a", status := .success,
         reason := "OK", message := "ok" }]).2.2.2 (by decide)).1

/-- C2 counterexample: a single skipped result produces a failing aggregate
whose `failed_checks` list is present but empty — the claim required
`failed_checks` to be non-empty on every non-success aggregate. -/
theorem aggregate_skipped_empty_failed_checks :
    (Aggregate [{ validatorName := "a", status := .skipped,
                  reason := "NotReady", message := "m" }]).status
        = Status.failure ∧
    (Aggregate [{ validatorName := "a", status := .skipped,
                  reason := "NotReady", message := "m" }]).details.failedChecks
        = some [] ∧
    (Aggregate [{ validatorName := "a", status := .skipped,
                  reason := "NotReady", message := "m" }]).message
        = "0 validation check(s) failed: . Passed: 0/1" := by
  refine ⟨rfl, rfl, ?_⟩
  decide

/-- C2 (amended): whenever some result has status other than success, the
aggregate has status failure, reason "ValidationFailed", `failed_checks`
equal to the validator names of exactly the failing results in input order
(possibly empty, when every non-success result is skipped), and message
"<k> validation check(s) failed: <name1> (<reason1>), ... . Passed: <p>/<n>"
with k the number of failing results, p the passed count and n the total
count; skipped results count in `checks_run` but not in `checks_passed`
and never appear in `failed_checks`. -/
theorem aggregate_failure_char (results : List Result)
    (h : ∃ r ∈ results, r.status ≠ .success) :
    (Aggregate results).status = .failure ∧
    (Aggregate results).reason = "ValidationFailed" ∧
    (Aggregate results).details.checksRun = results.length ∧
    (Aggregate results).details.checksPassed =
      (results.filter (fun r => r.status = .success)).length ∧
    (Aggregate results).details.failedChecks =
      some ((results.filter (fun r => r.status = .failure)).map
        (fun r => r.validatorName)) ∧
    (Aggregate results).message =
      toString (results.filter (fun r => r.status = .failure)).length
        ++ " validation check(s) failed: "
        ++ String.intercalate ", "
            ((results.filter (fun r => r.status = .failure)).map
              (fun r => r.validatorName ++ " (" ++ r.reason ++ ")"))
        ++ ". Passed: "
        ++ toString (results.filter (fun r => r.status = .success)).length
        ++ "/" ++ toString results.length := by
  have hne :
      (results.filter (fun r => r.status = .success)).length ≠ results.length := by
    rw [← List.countP_eq_length_filter, Ne, List.countP_eq_length]
    simp only [decide_eq_true_eq]
    rcases h with ⟨r, hr, hrs⟩
    exact fun hall => hrs (hall r hr)
  refine ⟨?_, ?_, ?_, ?_, ?_, ?_⟩ <;>
    simp [Aggregate, aggFold_char', hne]

/-- Witness for `aggregate_failure_char` at a concrete two-element input. -/
theorem aggregate_failure_char_witness :
    (Aggregate [{ validatorName := "a", status := .success,
                  reason := "OK", message := "ok" },
                { validatorName := "b", status := .failure,
                  reason := "Bad", message := "m" }]).message
      = "1 validation check(s) failed: b (Bad). Passed: 1/2" := by
  have h := aggregate_failure_char
    [{ validatorName := "a", status := .success,
       reason := "OK", message := "ok" },
     { validatorName := "b", status := .failure,
       reason := "Bad", message := "m" }]
    ⟨{ validatorName := "b", status := .failure,
       reason := "Bad", message := "m" }, by decide, by decide⟩
  rw [h.2.2.2.2.2]
  decide

/-! ### Configuration loader (src/validator/cmd/validator/main.go, config part) -/

/-- Process environment: `none` models an unset variable.  `osGetenv` is Go's
`os.Getenv`, which returns the empty string for unset variables. -/
def osGetenv (env : String → Option String) (key : String) : String :=
  (env key).getD ""

/-- Modelled from the Go standard library (not part of this repository):
`strconv.ParseBool` accepts exactly 1, t, T, TRUE, true, True, 0, f, F,
FALSE, false, False and errors on everything else. -/
def parseBool (s : String) : Option Bool :=
  if s = "1" ∨ s = "t" ∨ s = "T" ∨ s = "TRUE" ∨ s = "true" ∨ s = "True" then
    some true
  else if s = "0" ∨ s = "f" ∨ s = "F" ∨ s = "FALSE" ∨ s = "false" ∨ s = "False" then
    some false
  else none

/-- Modelled from the Go standard library (not part of this repository):
`strconv.Atoi` parses an optional sign followed by at least one decimal
digit and errors otherwise.  The 64-bit range error of the real function is
not modelled; no claim exercises it. -/
def atoi (s : String) : Option Int :=
  let digits (l : List Char) : Option Nat :=
    if l ≠ [] ∧ l.all Char.isDigit then
      some (l.foldl (fun acc c => acc * 10 + (c.toNat - 48)) 0)
    else none
  match s.data with
  | [] => none
  | c :: rest =>
    if c = '-' then (digits rest).map (fun n => -(n : Int))
    else if c = '+' then (digits rest).map (fun n => (n : Int))
    else (digits (c :: rest)).map (fun n => (n : Int))

/-- Typed configuration (Go `Config`). -/
structure Config where
  resultsPath : String
  projectID : String
  gcpRegion : String
  disabledValidators : List String
  stopOnFirstFailure : Bool
  requiredAPIs : List String
  requiredVCPUs : Int
  requiredDiskGB : Int
  requiredIPAddresses : Int
  vpcName : String
  subnetName : String
  logLevel : String
deriving DecidableEq, Repr

/-- Go `getEnv`: an empty (or unset) variable falls back to the default. -/
def getEnvStr (getenv : String → String) (key default : String) : String :=
  if getenv key ≠ "" then getenv key else default

/-- Go `getEnvBool`: non-empty values that fail `strconv.ParseBool` fall
back to the default. -/
def getEnvBool (getenv : String → String) (key : String) (default : Bool) : Bool :=
  if getenv key ≠ "" then
    match parseBool (getenv key) with
    | some b => b
    | none => default
  else default

/-- Go `getEnvInt`: non-empty values that fail `strconv.Atoi` fall back to
the default. -/
def getEnvInt (getenv : String → String) (key : String) (default : Int) : Int :=
  if getenv key ≠ "" then
    match atoi (getenv key) with
    | some i => i
    | none => default
  else default

/-- Modelled from the Go standard library (not part of this repository):
`strings.Split(s, ",")` — splits at every comma; an input without commas
yields the one-element list containing it. -/
def splitOnCommaAux : List Char → List Char → List String
  | [], acc => [String.mk acc.reverse]
  | c :: cs, acc =>
    if c = ',' then String.mk acc.reverse :: splitOnCommaAux cs []
    else splitOnCommaAux cs (c :: acc)

def splitOnComma (s : String) : List String :=
  splitOnCommaAux s.data []

/-- ASCII whitespace, the fragment of Go's Unicode `White_Space` class the
claims exercise. -/
def isSpaceChar (c : Char) : Bool :=
  c = ' ' ∨ c = '\t' ∨ c = '\n' ∨ c = '\r'

/-- Modelled from the Go standard library (not part of this repository):
`strings.TrimSpace` — drops leading and trailing whitespace. -/
def trimSpace (s : String) : String :=
  String.mk ((s.data.dropWhile isSpaceChar).reverse.dropWhile isSpaceChar).reverse

/-- Comma-split followed by per-entry whitespace trimming, as applied to
`DISABLED_VALIDATORS` and `REQUIRED_APIS`. -/
def splitTrim (s : String) : List String :=
  (splitOnComma s).map trimSpace

/-- Default `REQUIRED_APIS` set. -/
def defaultAPIs : List String :=
  ["compute.googleapis.com", "iam.googleapis.com",
   "cloudresourcemanager.googleapis.com"]

/-- Go `LoadFromEnv`, phrased over `os.Getenv` (total function from keys to
strings, empty string for unset). -/
def loadFromGetenv (getenv : String → String) : Except String Config :=
  let cfg : Config :=
    { resultsPath := getEnvStr getenv "RESULTS_PATH" "/results/adapter-result.json"
      projectID := getenv "PROJECT_ID"
      gcpRegion := getEnvStr getenv "GCP_REGION" ""
      disabledValidators :=
        if getenv "DISABLED_VALIDATORS" ≠ "" then
          splitTrim (getenv "DISABLED_VALIDATORS")
        else []
      stopOnFirstFailure := getEnvBool getenv "STOP_ON_FIRST_FAILURE" false
      requiredAPIs :=
        if getenv "REQUIRED_APIS" ≠ "" then splitTrim (getenv "REQUIRED_APIS")
        else defaultAPIs
      requiredVCPUs := getEnvInt getenv "REQUIRED_VCPUS" 0
      requiredDiskGB := getEnvInt getenv "REQUIRED_DISK_GB" 0
      requiredIPAddresses := getEnvInt getenv "REQUIRED_IP_ADDRESSES" 0
      vpcName := getEnvStr getenv "VPC_NAME" ""
      subnetName := getEnvStr getenv "SUBNET_NAME" ""
      logLevel := getEnvStr getenv "LOG_LEVEL" "info" }
  if cfg.projectID = "" then Except.error "PROJECT_ID is required"
  else Except.ok cfg

/-- `LoadFromEnv` on an environment in which unset variables are `none`. -/
def LoadFromEnv (env : String → Option String) : Except String Config :=
  loadFromGetenv (osGetenv env)

/-- C9: the loader errors iff `PROJECT_ID` is empty; a malformed
`REQUIRED_VCPUS` integer and a malformed `STOP_ON_FIRST_FAILURE` boolean
fall back to their defaults (0 and false) instead of failing; entries of
the comma-separated `DISABLED_VALIDATORS` and `REQUIRED_APIS` lists are
whitespace-trimmed. -/
theorem loadFromEnv_error_iff (env : String → Option String) :
    ((∃ e, LoadFromEnv env = .error e) ↔ osGetenv env "PROJECT_ID" = "") ∧
    (∀ cfg, LoadFromEnv env = .ok cfg →
      (atoi (osGetenv env "REQUIRED_VCPUS") = none →
        cfg.requiredVCPUs = 0) ∧
      (parseBool (osGetenv env "STOP_ON_FIRST_FAILURE") = none →
        cfg.stopOnFirstFailure = false) ∧
      (osGetenv env "DISABLED_VALIDATORS" ≠ "" →
        cfg.disabledValidators =
          (splitOnComma (osGetenv env "DISABLED_VALIDATORS")).map trimSpace) ∧
      (osGetenv env "REQUIRED_APIS" ≠ "" →
        cfg.requiredAPIs =
          (splitOnComma (osGetenv env "REQUIRED_APIS")).map trimSpace)) := by
  constructor
  · by_cases h : osGetenv env "PROJECT_ID" = "" <;>
      simp [LoadFromEnv, loadFromGetenv, h]
  · intro cfg hcfg
    by_cases h : osGetenv env "PROJECT_ID" = ""
    · simp [LoadFromEnv, loadFromGetenv, h] at hcfg
    · simp only [LoadFromEnv, loadFromGetenv, h, if_false, ite_false,
        if_neg h, Except.ok.injEq] at hcfg
      subst hcfg
      refine ⟨?_, ?_, ?_, ?_⟩
      · intro hint
        simp [getEnvInt, hint]
      · intro hpb
        simp [getEnvBool, hpb]
      · intro hdv
        simp [splitTrim, hdv]
      · intro hra
        simp [splitTrim, hra]

/-- Concrete environment used by the loader witnesses: valid `PROJECT_ID`,
malformed integer and boolean, padded comma-separated list. -/
def envW : String → Option String := fun k =>
  if k = "PROJECT_ID" then some "my-project"
  else if k = "REQUIRED_VCPUS" then some "not-a-number"
  else if k = "STOP_ON_FIRST_FAILURE" then some "not-a-bool"
  else if k = "DISABLED_VALIDATORS" then some " a , b "
  else none

/-- The configuration `envW` loads to. -/
def cfgW : Config :=
  { resultsPath := "/results/adapter-result.json"
    projectID := "my-project"
    gcpRegion := ""
    disabledValidators := ["a", "b"]
    stopOnFirstFailure := false
    requiredAPIs := defaultAPIs
    requiredVCPUs := 0
    requiredDiskGB := 0
    requiredIPAddresses := 0
    vpcName := ""
    subnetName := ""
    logLevel := "info" }

/-- Witness for `loadFromEnv_error_iff` at the concrete environment `envW`. -/
theorem loadFromEnv_error_iff_witness :
    LoadFromEnv envW = .ok cfgW ∧ cfgW.requiredVCPUs = 0 := by
  have h : LoadFromEnv envW = .ok cfgW := by rfl
  exact ⟨h, (((loadFromEnv_error_iff envW).2 cfgW h).1 (by decide))⟩

/-- Point update of an environment. -/
def setEnvVar (env : String → Option String) (key : String) (v : Option String) :
    String → Option String := fun k => if k = key then v else env k

/-- Environment with `PROJECT_ID` set and every other variable set to the
empty string. -/
def envE : String → Option String := fun k =>
  if k = "PROJECT_ID" then some "p" else some ""

/-- The configuration `envE` loads to: every option at its documented
default. -/
def cfgE : Config :=
  { resultsPath := "/results/adapter-result.json"
    projectID := "p"
    gcpRegion := ""
    disabledValidators := []
    stopOnFirstFailure := false
    requiredAPIs := defaultAPIs
    requiredVCPUs := 0
    requiredDiskGB := 0
    requiredIPAddresses := 0
    vpcName := ""
    subnetName := ""
    logLevel := "info" }

/-- C10: setting any environment variable to the empty string is
indistinguishable from leaving it unset; with `PROJECT_ID` set and every
other option empty, the loader produces exactly the documented defaults
(`/results/adapter-result.json`, log level "info", fail-fast off, no
disabled validators, default API list); an empty `PROJECT_ID` is a fatal
configuration error. -/
theorem loadFromEnv_empty_eq_unset :
    (∀ (env : String → Option String) (k : String),
      LoadFromEnv (setEnvVar env k (some "")) =
        LoadFromEnv (setEnvVar env k none)) ∧
    LoadFromEnv envE = .ok cfgE ∧
    LoadFromEnv (fun _ => some "") = .error "PROJECT_ID is required" := by
  refine ⟨?_, by rfl, by rfl⟩
  intro env k
  have h : osGetenv (setEnvVar env k (some "")) =
      osGetenv (setEnvVar env k none) := by
    funext k'
    by_cases hk : k' = k <;> simp [osGetenv, setEnvVar, hk]
  simp only [LoadFromEnv, h]

/-! ### Lazy client accessors of Context
(src/validator/pkg/validator/context.go, `sync.Once` variant,
lines 185-197 / 236-248)

Service handles are opaque; they are modelled as `Nat` identifiers.  The
factory call (`clientFactory.Create<X>Service`) is abstracted as its
outcome, an `Except`.  Calls from concurrent validators are serialised by
the `sync.Once` latch, so a run is modelled as a sequence of calls
threading the slot state. -/

/-- One lazy client slot of `Context`: the `sync.Once` latch plus the
cached handle field (e.g. `computeOnce` / `computeService`). -/
structure OnceSlot where
  onceDone : Bool
  svc : Option Nat
deriving DecidableEq, Repr

def initSlot : OnceSlot := { onceDone := false, svc := none }

/-- One call to a lazy accessor, e.g. `GetComputeService`: `once.Do` runs
the factory only when the latch has not fired; the local `err` variable is
nil whenever `Do` skips the closure, and on the success path the accessor
returns the cached handle field.  Result: new slot state, the observed
(handle, error) pair, and whether a construction attempt was made. -/
def getServiceCall (factory : Except String Nat) (c : OnceSlot) :
    OnceSlot × (Option Nat × Option String) × Bool :=
  if c.onceDone then (c, (c.svc, none), false)
  else
    match factory with
    | .ok s => ({ onceDone := true, svc := some s }, (some s, none), true)
    | .error e =>
        ({ onceDone := true, svc := none },
         (none, some ("failed to create compute service: " ++ e)), true)

/-- A run of `n` sequential calls to the same accessor: the list of
observed (handle, error) pairs in call order, and the total number of
construction attempts. -/
def runCalls (factory : Except String Nat) :
    Nat → OnceSlot → List (Option Nat × Option String) × Nat
  | 0, _ => ([], 0)
  | n + 1, c =>
    let step := getServiceCall factory c
    let rest := runCalls factory n step.1
    (step.2.1 :: rest.1, (if step.2.2 then 1 else 0) + rest.2)

/-- A slot whose latch has fired never attempts construction again. -/
theorem runCalls_done_no_attempts (factory : Except String Nat) (n : Nat) :
    ∀ c : OnceSlot, c.onceDone = true →
      (runCalls factory n c).2 = 0 ∧
        ∀ out ∈ (runCalls factory n c).1, out = (c.svc, none) := by
  induction n with
  | zero => intro c h; simp [runCalls]
  | succ n ih =>
    intro c h
    have hstep : getServiceCall factory c = (c, (c.svc, none), false) := by
      simp [getServiceCall, h]
    rcases ih c h with ⟨h1, h2⟩
    simp only [runCalls, hstep]
    refine ⟨by simpa using h1, ?_⟩
    intro out hout
    simp only [List.mem_cons] at hout
    rcases hout with rfl | hout
    · rfl
    · exact h2 out hout

/-- C5, first half (holds): across any number of sequential calls to one
accessor, at most one construction attempt happens. -/
theorem runCalls_at_most_one_attempt (factory : Except String Nat) (n : Nat) :
    (runCalls factory n initSlot).2 ≤ 1 := by
  cases n with
  | zero => simp [runCalls]
  | succ n =>
    cases factory with
    | ok s =>
        have h := (runCalls_done_no_attempts (.ok s) n
          { onceDone := true, svc := some s } rfl).1
        simp [runCalls, getServiceCall, initSlot, h]
    | error e =>
        have h := (runCalls_done_no_attempts (.error e) n
          { onceDone := true, svc := none } rfl).1
        simp [runCalls, getServiceCall, initSlot, h]

/-- C5, failure half (fails in the code): when the single construction
attempt fails, the first call observes the error but every later call
observes a nil handle together with a nil error, because the `sync.Once`
closure stored the error only in a local variable.  Evaluation at the
failing input: two calls with a failing factory. -/
theorem getService_error_not_cached :
    (runCalls (.error "boom") 2 initSlot).1 =
      [(none, some ("failed to create compute service: boom")),
       (none, none)] ∧
    (runCalls (.error "boom") 2 initSlot).2 = 1 := by
  constructor <;> rfl

/-! ### Retry helper (src/validator/pkg/gcp/client.go, lines 40-86)

`operation()` outcomes are abstracted as a function from the attempt index
to an outcome; the cancel token is abstracted as the predicates
`cancelDuringWait` (the token fires during the backoff wait before a given
attempt) and `ctxDoneAfter` (`ctx.Err() != nil` observed after a failed
attempt).  The trace records the outcome, the completed backoff waits in
milliseconds, and the number of `operation()` invocations. -/

/-- One outcome of `operation()`: success, a `googleapi.Error` with an HTTP
code, or a non-googleapi (network) error. -/
inductive OpOutcome where
  | ok
  | apiErr (code : Nat)
  | netErr
deriving DecidableEq, Repr

/-- Result of `retryWithBackoff`, by return site. -/
inductive RetryOutcome where
  | ok
  | cancelledDuringWait
  | nonRetryable (code : Nat)
  | ctxError
  | maxRetriesExceeded (last : Option OpOutcome)
deriving DecidableEq, Repr

def initialBackoffMs : Nat := 100
def maxBackoffMs : Nat := 30000
def maxRetries : Nat := 5

/-- Retryable HTTP codes: 429, 503, 500. -/
def isRetryableCode (c : Nat) : Bool :=
  c = 429 ∨ c = 503 ∨ c = 500

structure RetryTrace where
  outcome : RetryOutcome
  sleeps : List Nat
  opCalls : Nat
deriving DecidableEq, Repr

/-- The backoff update at the top of each retry iteration
(client.go lines 47-52). -/
def nextBackoff (b : Nat) : Nat :=
  if b < maxBackoffMs then min (b * 2) maxBackoffMs else b

/-- The loop of `retryWithBackoff`, unrolled on the remaining attempt
budget (`fuel` = `maxRetries - attempt`); `attempt`, `backoff` and the
last error are the loop state. -/
def retryLoop (ops : Nat → OpOutcome) (cancelDuringWait : Nat → Bool)
    (ctxDoneAfter : Nat → Bool) :
    Nat → Nat → Nat → Option OpOutcome → RetryTrace
  | 0, _, _, last => { outcome := .maxRetriesExceeded last, sleeps := [], opCalls := 0 }
  | fuel + 1, attempt, backoff, _ =>
    let b2 := if attempt = 0 then backoff else nextBackoff backoff
    if attempt ≠ 0 ∧ cancelDuringWait attempt then
      { outcome := .cancelledDuringWait, sleeps := [], opCalls := 0 }
    else
      let sl : List Nat := if attempt = 0 then [] else [b2]
      match ops attempt with
      | .ok => { outcome := .ok, sleeps := sl, opCalls := 1 }
      | .apiErr c =>
        if isRetryableCode c then
          let t := retryLoop ops cancelDuringWait ctxDoneAfter fuel
            (attempt + 1) b2 (some (.apiErr c))
          { outcome := t.outcome, sleeps := sl ++ t.sleeps, opCalls := t.opCalls + 1 }
        else { outcome := .nonRetryable c, sleeps := sl, opCalls := 1 }
      | .netErr =>
        if ctxDoneAfter attempt then
          { outcome := .ctxError, sleeps := sl, opCalls := 1 }
        else
          let t := retryLoop ops cancelDuringWait ctxDoneAfter fuel
            (attempt + 1) b2 (some .netErr)
          { outcome := t.outcome, sleeps := sl ++ t.sleeps, opCalls := t.opCalls + 1 }

/-- `retryWithBackoff` itself: at most `maxRetries` attempts starting from
`initialBackoff`. -/
def retryWithBackoff (ops : Nat → OpOutcome) (cancelDuringWait : Nat → Bool)
    (ctxDoneAfter : Nat → Bool) : RetryTrace :=
  retryLoop ops cancelDuringWait ctxDoneAfter maxRetries 0 initialBackoffMs none

/-- The number of operation invocations is bounded by the attempt budget. -/
theorem retryLoop_opCalls_le (ops : Nat → OpOutcome) (cw cd : Nat → Bool) :
    ∀ fuel attempt backoff last,
      (retryLoop ops cw cd fuel attempt backoff last).opCalls ≤ fuel := by
  intro fuel
  induction fuel with
  | zero => intro attempt backoff last; simp [retryLoop]
  | succ fuel ih =>
    intro attempt backoff last
    simp only [retryLoop]
    split
    · simp
    · rcases hop : ops attempt with _ | c | _ <;> simp only
      · simp
      · split
        · simpa using Nat.succ_le_succ (ih (attempt + 1) _ _)
        · simp
      · split
        · simp
        · simpa using Nat.succ_le_succ (ih (attempt + 1) _ _)

/-- The sequence of doublings-with-cap the loop walks through. -/
def backoffSeq : Nat → Nat → List Nat
  | _, 0 => []
  | b, k + 1 => nextBackoff b :: backoffSeq (nextBackoff b) k

/-- From any retry-position (`attempt ≠ 0`), the completed sleeps are an
initial segment of the doubling-with-cap sequence from the current
backoff. -/
theorem retryLoop_sleeps_prefix (ops : Nat → OpOutcome) (cw cd : Nat → Bool) :
    ∀ fuel attempt backoff last, attempt ≠ 0 →
      ∃ t, (retryLoop ops cw cd fuel attempt backoff last).sleeps ++ t =
        backoffSeq backoff fuel := by
  intro fuel
  induction fuel with
  | zero =>
    intro attempt backoff last _
    exact ⟨[], by simp [retryLoop, backoffSeq]⟩
  | succ fuel ih =>
    intro attempt backoff last ha
    simp only [retryLoop, if_neg ha, backoffSeq]
    split
    · exact ⟨nextBackoff backoff :: backoffSeq (nextBackoff backoff) fuel, rfl⟩
    · rcases hop : ops attempt with _ | c | _ <;> simp only
      · exact ⟨backoffSeq (nextBackoff backoff) fuel, by simp⟩
      · split
        · rcases ih (attempt + 1) (nextBackoff backoff) (some (.apiErr c))
            (Nat.succ_ne_zero _) with ⟨t, ht⟩
          exact ⟨t, by simp [ht]⟩
        · exact ⟨backoffSeq (nextBackoff backoff) fuel, by simp⟩
      · split
        · exact ⟨backoffSeq (nextBackoff backoff) fuel, by simp⟩
        · rcases ih (attempt + 1) (nextBackoff backoff) (some .netErr)
            (Nat.succ_ne_zero _) with ⟨t, ht⟩
          exact ⟨t, by simp [ht]⟩

/-- The first iteration (attempt 0) never sleeps; the rest of the run
sleeps along the doubling-with-cap sequence from the initial backoff. -/
theorem retryLoop_sleeps_prefix0 (ops : Nat → OpOutcome) (cw cd : Nat → Bool)
    (fuel backoff : Nat) (last : Option OpOutcome) :
    ∃ t, (retryLoop ops cw cd (fuel + 1) 0 backoff last).sleeps ++ t =
      backoffSeq backoff fuel := by
  simp only [retryLoop]
  simp only [ne_eq, not_true_eq_false, false_and, if_false, reduceIte]
  rcases hop : ops 0 with _ | c | _ <;> simp only
  · exact ⟨backoffSeq backoff fuel, by simp⟩
  · split
    · rcases retryLoop_sleeps_prefix ops cw cd fuel 1 backoff
        (some (.apiErr c)) one_ne_zero with ⟨t, ht⟩
      exact ⟨t, by simpa using ht⟩
    · exact ⟨backoffSeq backoff fuel, by simp⟩
  · split
    · exact ⟨backoffSeq backoff fuel, by simp⟩
    · rcases retryLoop_sleeps_prefix ops cw cd fuel 1 backoff
        (some .netErr) one_ne_zero with ⟨t, ht⟩
      exact ⟨t, by simpa using ht⟩

/-- The completed sleeps of a full run are an initial segment of
[200, 400, 800, 1600] (ms): the 100 ms initial backoff is doubled *before*
the first wait, and the 30 s cap is never reached within 5 attempts. -/
theorem retryWithBackoff_sleeps (ops : Nat → OpOutcome) (cw cd : Nat → Bool) :
    ∃ t, (retryWithBackoff ops cw cd).sleeps ++ t = [200, 400, 800, 1600] := by
  have h := retryLoop_sleeps_prefix0 ops cw cd 4 initialBackoffMs none
  have hseq : backoffSeq initialBackoffMs 4 = [200, 400, 800, 1600] := by decide
  rw [hseq] at h
  exact h

/-- A non-retryable googleapi error is returned as-is, with no further
attempt (client.go lines 68-77), from any loop state whose wait was not
cancelled. -/
theorem retryLoop_nonretryable (ops : Nat → OpOutcome) (cw cd : Nat → Bool)
    (fuel attempt backoff : Nat) (last : Option OpOutcome) (c : Nat)
    (hf : fuel ≠ 0) (hcw : attempt = 0 ∨ cw attempt = false)
    (hop : ops attempt = .apiErr c) (hc : isRetryableCode c = false) :
    retryLoop ops cw cd fuel attempt backoff last =
      { outcome := .nonRetryable c,
        sleeps := if attempt = 0 then [] else [nextBackoff backoff],
        opCalls := 1 } := by
  cases fuel with
  | zero => exact absurd rfl hf
  | succ fuel =>
    have hnc : ¬(attempt ≠ 0 ∧ cw attempt = true) := by
      rintro ⟨ha, hct⟩
      rcases hcw with h0 | hfalse
      · exact ha h0
      · rw [hfalse] at hct
        exact Bool.false_ne_true hct
    simp only [retryLoop, if_neg hnc]
    rw [hop]
    by_cases h0 : attempt = 0 <;> simp [h0, hc]

/-- If the cancel token fires during the backoff wait before a retry, the
function returns the context-cancelled error immediately, without invoking
the operation (client.go lines 55-59). -/
theorem retryLoop_cancelled (ops : Nat → OpOutcome) (cw cd : Nat → Bool)
    (fuel attempt backoff : Nat) (last : Option OpOutcome)
    (hf : fuel ≠ 0) (ha : attempt ≠ 0) (hcw : cw attempt = true) :
    retryLoop ops cw cd fuel attempt backoff last =
      { outcome := .cancelledDuringWait, sleeps := [], opCalls := 0 } := by
  cases fuel with
  | zero => exact absurd rfl hf
  | succ fuel =>
    simp only [retryLoop]
    rw [if_pos ⟨ha, hcw⟩]

/-- A failure outcome on which the loop keeps retrying: a retryable
googleapi code, or a non-googleapi error with the context still live. -/
def retryableFailure (ops : Nat → OpOutcome) (cd : Nat → Bool) (k : Nat) : Prop :=
  (∃ c, ops k = .apiErr c ∧ isRetryableCode c = true) ∨
    (ops k = .netErr ∧ cd k = false)

/-- When every attempt fails retryably and the token never fires, the loop
exhausts its budget and wraps the last error in "max retries exceeded". -/
theorem retryLoop_exhausts (ops : Nat → OpOutcome) (cw cd : Nat → Bool)
    (hcw : ∀ k, cw k = false) (hfail : ∀ k, retryableFailure ops cd k) :
    ∀ fuel attempt backoff last, fuel ≠ 0 →
      (retryLoop ops cw cd fuel attempt backoff last).outcome =
        .maxRetriesExceeded (some (ops (attempt + fuel - 1))) := by
  intro fuel
  induction fuel with
  | zero => intro attempt backoff last h; exact absurd rfl h
  | succ fuel ih =>
    intro attempt backoff last _
    have hnc : ¬(attempt ≠ 0 ∧ cw attempt = true) := by
      rintro ⟨-, hct⟩
      rw [hcw attempt] at hct
      exact Bool.false_ne_true hct
    simp only [retryLoop, if_neg hnc]
    rcases hfail attempt with ⟨c, hop, hret⟩ | ⟨hop, hcd⟩
    · rw [hop]
      simp only [hret, if_pos, reduceIte]
      cases fuel with
      | zero => simp [retryLoop, hop]
      | succ fuel =>
          rw [ih (attempt + 1) _ (some (.apiErr c)) (Nat.succ_ne_zero _),
            show attempt + 1 + (fuel + 1) - 1 = attempt + (fuel + 1 + 1) - 1
              by omega]
    · rw [hop]
      simp only [hcd, Bool.false_eq_true, if_false, reduceIte]
      cases fuel with
      | zero => simp [retryLoop, hop]
      | succ fuel =>
          rw [ih (attempt + 1) _ (some .netErr) (Nat.succ_ne_zero _),
            show attempt + 1 + (fuel + 1) - 1 = attempt + (fuel + 1 + 1) - 1
              by omega]

/-- C6 (amended): `retryWithBackoff` attempts the operation at most 5
times; its completed backoff waits follow the doubled sequence 200 ms,
400 ms, 800 ms, 1600 ms — the 100 ms initial backoff is doubled *before*
the first wait, so the first wait is 200 ms, and every wait is at most the
30 s cap; a googleapi error whose HTTP code is not 429, 503 or 500 is
returned immediately with no further attempt and no sleep; if the cancel
token fires during a backoff wait the call returns immediately with the
context-cancelled error and no operation call; and when every attempt
fails retryably the call returns "max retries exceeded" wrapping the last
(fifth) error. -/
theorem retryWithBackoff_spec (ops : Nat → OpOutcome) (cw cd : Nat → Bool) :
    (retryWithBackoff ops cw cd).opCalls ≤ 5 ∧
    (∃ t, (retryWithBackoff ops cw cd).sleeps ++ t = [200, 400, 800, 1600]) ∧
    (∀ s ∈ (retryWithBackoff ops cw cd).sleeps, s ≤ 30000) ∧
    (∀ fuel attempt backoff last c, fuel ≠ 0 →
      attempt = 0 ∨ cw attempt = false →
      ops attempt = .apiErr c → isRetryableCode c = false →
      retryLoop ops cw cd fuel attempt backoff last =
        { outcome := .nonRetryable c,
          sleeps := if attempt = 0 then [] else [nextBackoff backoff],
          opCalls := 1 }) ∧
    (∀ fuel attempt backoff last, fuel ≠ 0 → attempt ≠ 0 → cw attempt = true →
      retryLoop ops cw cd fuel attempt backoff last =
        { outcome := .cancelledDuringWait, sleeps := [], opCalls := 0 }) ∧
    ((∀ k, cw k = false) → (∀ k, retryableFailure ops cd k) →
      (retryWithBackoff ops cw cd).outcome =
        .maxRetriesExceeded (some (ops 4))) := by
  refine ⟨retryLoop_opCalls_le ops cw cd 5 0 initialBackoffMs none,
    retryWithBackoff_sleeps ops cw cd, ?_, ?_, ?_, ?_⟩
  · intro s hs
    rcases retryWithBackoff_sleeps ops cw cd with ⟨t, ht⟩
    have hmem : s ∈ [200, 400, 800, 1600] := by
      rw [← ht]
      exact List.mem_append_left _ hs
    simp only [List.mem_cons, List.not_mem_nil, or_false] at hmem
    rcases hmem with rfl | rfl | rfl | rfl <;> omega
  · exact fun fuel attempt backoff last c hf hcw hop hc =>
      retryLoop_nonretryable ops cw cd fuel attempt backoff last c hf hcw
        hop hc
  · exact fun fuel attempt backoff last hf ha hcw =>
      retryLoop_cancelled ops cw cd fuel attempt backoff last hf ha hcw
  · intro hcw hfail
    exact retryLoop_exhausts ops cw cd hcw hfail 5 0 initialBackoffMs none
      (by decide)

/-- Witness for `retryWithBackoff_spec`: a permanent 403 is returned after
exactly one attempt, and a run of persistent network errors exhausts the
budget with sleeps 200, 400, 800, 1600 ms. -/
theorem retryWithBackoff_spec_witness :
    retryWithBackoff (fun _ => .apiErr 403) (fun _ => false) (fun _ => false) =
      { outcome := .nonRetryable 403, sleeps := [], opCalls := 1 } ∧
    (retryWithBackoff (fun _ => .netErr) (fun _ => false)
        (fun _ => false)).outcome =
      .maxRetriesExceeded (some .netErr) :=
  ⟨by
    have h := (retryWithBackoff_spec (fun _ => .apiErr 403) (fun _ => false)
      (fun _ => false)).2.2.2.1 5 0 initialBackoffMs none 403 (by decide)
      (Or.inl rfl) rfl (by decide)
    simpa using h,
   (retryWithBackoff_spec (fun _ => .netErr) (fun _ => false)
      (fun _ => false)).2.2.2.2.2 (fun _ => rfl)
      (fun _ => Or.inr ⟨rfl, rfl⟩)⟩

/-- C6 counterexample to the claimed 100 ms initial wait: with persistent
retryable failures and a live context the four completed waits are 200,
400, 800 and 1600 ms — the wait before the first retry is 200 ms, not
100 ms, because the code doubles the backoff before sleeping. -/
theorem retryWithBackoff_first_wait_is_200 :
    (retryWithBackoff (fun _ => .netErr) (fun _ => false)
        (fun _ => false)).sleeps = [200, 400, 800, 1600] ∧
    (retryWithBackoff (fun _ => .netErr) (fun _ => false)
        (fun _ => false)).sleeps.head? = some 200 ∧
    (200 : Nat) ≠ 100 := by
  refine ⟨by decide, by decide, by decide⟩

/-! ### Dependency resolver (src/validator/pkg/validator/resolver.go)

A validator is reduced to what the engine reads from it: its metadata
(name, runAfter), the answer of `Enabled`, and the result its `Validate`
returns (pure abstraction of the validation body).  The Go
`map[string]Validator` built by `NewDependencyResolver` is modelled by the
input list with unique names (names are unique within a run, spec §3);
lookup is `List.find?` on the name.  Where the Go code ranges over the map
in unspecified order, the model uses the list order; the proved
properties do not depend on it. -/

structure VInfo where
  name : String
  runAfter : List String
  enabled : Bool
  res : Result
deriving DecidableEq, Repr

def lookupV (vs : List VInfo) (n : String) : Option VInfo :=
  vs.find? (fun v => v.name = n)

def isNodeOf (vs : List VInfo) (n : String) : Bool :=
  (lookupV vs n).isSome

def nodeNames (vs : List VInfo) : List String :=
  vs.map (fun v => v.name)

/-- `RunAfter` list of the validator registered under `n`. -/
def runAfterOf (vs : List VInfo) (n : String) : List String :=
  match lookupV vs n with
  | none => []
  | some v => v.runAfter

/-- The dependency edges the resolver actually follows: `run_after` entries
whose target is registered (edges to absent names are dropped). -/
def presentDeps (vs : List VInfo) (n : String) : List String :=
  (runAfterOf vs n).filter (fun d => isNodeOf vs d)

/-- Induced dependency graph: `Edge vs a b` iff the resolver follows the
edge a → b. -/
def Edge (vs : List VInfo) (a b : String) : Prop :=
  b ∈ presentDeps vs a

instance (vs : List VInfo) (a b : String) : Decidable (Edge vs a b) := by
  unfold Edge
  infer_instance

/-- The induced graph contains a (directed) cycle. -/
def HasCycle (vs : List VInfo) : Prop :=
  ∃ v, Relation.TransGen (Edge vs) v v

/-- The `for _, dep := range meta.RunAfter` loop of the recursive `dfs`
closure of `detectCycles` (resolver.go 119-133): skip absent names;
recurse — through `visit`, the dfs call at the remaining depth budget —
on unvisited ones; report a back edge to a node on the recursion stack. -/
def dfsDeps (vs : List VInfo)
    (visit : String → List String → List String →
      Except (String × String) (List String)) :
    List String → String → List String → List String →
    Except (String × String) (List String)
  | [], _, _, visited => .ok visited
  | d :: ds, name, path, visited =>
    if isNodeOf vs d then
      if d ∉ visited then
        match visit d path visited with
        | .error e => .error e
        | .ok visited2 => dfsDeps vs visit ds name path visited2
      else if d ∈ path then .error (name, d)
      else dfsDeps vs visit ds name path visited
    else dfsDeps vs visit ds name path visited

/-- The recursive `dfs` closure of `detectCycles` (resolver.go 112-137):
mark `name` visited and on the recursion stack, then walk its
dependencies.  `fuel` bounds the recursion depth (the Go recursion is
bounded by the number of unvisited nodes); `path` is the recursion stack
(`recStack`), `visited` the visited set.  On success the extended visited
set is returned; the error carries the reported edge (name, dep). -/
def dfsNode (vs : List VInfo) : Nat → String → List String → List String →
    Except (String × String) (List String)
  | 0, _, _, visited => .ok visited
  | fuel + 1, name, path, visited =>
    dfsDeps vs (dfsNode vs fuel) (runAfterOf vs name) name (name :: path)
      (name :: visited)

/-- The `for name := range r.validators` loop of `detectCycles`
(resolver.go 139-145). -/
def detectLoop (vs : List VInfo) : List String → List String →
    Except (String × String) (List String)
  | [], visited => .ok visited
  | n :: ns, visited =>
    if n ∈ visited then detectLoop vs ns visited
    else
      match dfsNode vs (vs.length + 1) n [] visited with
      | .error e => .error e
      | .ok visited2 => detectLoop vs ns visited2

/-- `detectCycles` (resolver.go 107-148).  The reported pair (a, b) is
rendered by the caller as "circular dependency detected: a -> b". -/
def detectCycles (vs : List VInfo) : Except (String × String) Unit :=
  (detectLoop vs (nodeNames vs) []).map (fun _ => ())

/-- Memo table of `assignLevels` (Go `levels map[string]int`). -/
def lookupLvl (t : List (String × Int)) (n : String) : Option Int :=
  (t.find? (fun p => p.1 = n)).map (fun p => p.2)

/-- The `for _, dep := range meta.RunAfter` loop of `calcLevel`
(resolver.go 84-91): fold the running maximum over the levels of present
dependencies, computed through `lvl`, the memoised recursion at the
remaining depth budget. -/
def calcDeps (vs : List VInfo)
    (lvl : String → List (String × Int) → List (String × Int) × Int) :
    List String → List (String × Int) → Int → List (String × Int) × Int
  | [], t, acc => (t, acc)
  | d :: ds, t, acc =>
    if isNodeOf vs d then
      let r := lvl d t
      calcDeps vs lvl ds r.1 (max acc r.2)
    else calcDeps vs lvl ds t acc

/-- The memoised `calcLevel` closure of `assignLevels`
(resolver.go 73-97): return the memo entry if present, otherwise compute
`1 + max(level of each known dependency)` (with the running maximum
starting at -1, so a validator with no present dependency gets level 0)
and memoise it. -/
def calcLevel (vs : List VInfo) : Nat → String → List (String × Int) →
    List (String × Int) × Int
  | 0, _, t => (t, 0)
  | fuel + 1, name, t =>
    match lookupLvl t name with
    | some l => (t, l)
    | none =>
      let r := calcDeps vs (calcLevel vs fuel) (runAfterOf vs name) t (-1)
      ((name, r.2 + 1) :: r.1, r.2 + 1)

/-- The `for name := range r.validators { calcLevel(name) }` loop of
`assignLevels` (resolver.go 99-101). -/
def assignLoop (vs : List VInfo) : List String → List (String × Int) →
    List (String × Int)
  | [], t => t
  | n :: ns, t => assignLoop vs ns (calcLevel vs (vs.length + 1) n t).1

/-- `assignLevels` (resolver.go 69-104). -/
def assignLevels (vs : List VInfo) : List (String × Int) :=
  assignLoop vs (nodeNames vs) []

structure ExecutionGroup where
  level : Int
  validators : List VInfo
deriving DecidableEq, Repr

/-- In-level ordering: `sort.Slice` by name ascending (resolver.go
55-57).  `sort.Slice` promises a sorted permutation without fixing the
algorithm; it is modelled as an insertion sort. -/
def insertByName (v : VInfo) : List VInfo → List VInfo
  | [] => [v]
  | w :: ws =>
    if v.name ≤ w.name then v :: w :: ws else w :: insertByName v ws

def sortByName (l : List VInfo) : List VInfo :=
  l.foldr insertByName []

/-- The `for level := 0; ; level++` grouping loop of
`ResolveExecutionGroups` (resolver.go 41-63): gather the validators map
at each level (missing memo entries read as the Go zero value 0), sort
them by name, stop at the first empty level.  The fuel `|vs| + 1`
over-approximates the Go loop, which stops by itself; every occupied
level is below `|vs|`. -/
def groupsFrom (vs : List VInfo) (t : List (String × Int)) :
    Nat → Int → List ExecutionGroup
  | 0, _ => []
  | fuel + 1, level =>
    let members := vs.filter (fun v => (lookupLvl t v.name).getD 0 = level)
    if members = [] then []
    else
      { level := level, validators := sortByName members } ::
        groupsFrom vs t fuel (level + 1)

/-- `ResolveExecutionGroups` (resolver.go 31-66). -/
def ResolveExecutionGroups (vs : List VInfo) :
    Except String (List ExecutionGroup) :=
  match detectCycles vs with
  | .error e =>
      .error ("circular dependency detected: " ++ e.1 ++ " -> " ++ e.2)
  | .ok _ =>
      .ok (groupsFrom vs (assignLevels vs) (vs.length + 1) 0)

/-! Soundness of cycle detection: a reported edge closes a cycle. -/

theorem isNodeOf_iff_mem (vs : List VInfo) (n : String) :
    isNodeOf vs n = true ↔ n ∈ nodeNames vs := by
  rw [isNodeOf, lookupV, List.find?_isSome, nodeNames]
  constructor
  · rintro ⟨v, hv, hvn⟩
    simp only [decide_eq_true_eq] at hvn
    exact List.mem_map.mpr ⟨v, hv, hvn⟩
  · intro hn
    rcases List.mem_map.mp hn with ⟨v, hv, hvn⟩
    exact ⟨v, hv, by simp [hvn]⟩

theorem edge_iff (vs : List VInfo) (a b : String) :
    Edge vs a b ↔ b ∈ runAfterOf vs a ∧ isNodeOf vs b = true := by
  simp [Edge, presentDeps, List.mem_filter]

/-- Walking down the recursion stack follows edges: any member of the
stack reaches the top of the stack. -/
theorem chain_mem_rtg (vs : List VInfo) :
    ∀ (path : List String) (name x : String),
      List.Chain (fun p q => Edge vs q p) name path →
      x ∈ name :: path →
      Relation.ReflTransGen (Edge vs) x name := by
  intro path
  induction path with
  | nil =>
    intro name x _ hx
    rcases List.mem_singleton.mp hx with rfl
    exact Relation.ReflTransGen.refl
  | cons b rest ih =>
    intro name x hchain hx
    rcases List.chain_cons.mp hchain with ⟨hedge, hchain'⟩
    rcases List.mem_cons.mp hx with rfl | hx'
    · exact Relation.ReflTransGen.refl
    · exact Relation.ReflTransGen.tail (ih b x hchain' hx') hedge

/-- Soundness of the DFS error: the reported pair (u, d) is an edge of the
induced graph whose target reaches its source — the edge closes a cycle. -/
theorem dfs_error_spec (vs : List VInfo) : ∀ fuel : Nat,
    (∀ name path visited u d,
      List.Chain (fun p q => Edge vs q p) name path →
      dfsNode vs fuel name path visited = .error (u, d) →
      Edge vs u d ∧ Relation.ReflTransGen (Edge vs) d u) ∧
    (∀ ds name path visited u d,
      (∀ x ∈ ds, x ∈ runAfterOf vs name) →
      List.Chain (fun p q => Edge vs q p) name path →
      dfsDeps vs (dfsNode vs fuel) ds name (name :: path) visited =
        .error (u, d) →
      Edge vs u d ∧ Relation.ReflTransGen (Edge vs) d u) := by
  intro fuel
  induction fuel with
  | zero =>
    constructor
    · intro name path visited u d _ h
      simp [dfsNode] at h
    · intro ds
      induction ds with
      | nil => intro name path visited u d _ _ h; simp [dfsDeps] at h
      | cons x ds ihds =>
        intro name path visited u d hsub hchain h
        simp only [dfsDeps] at h
        by_cases hnode : isNodeOf vs x = true
        · rw [if_pos hnode] at h
          by_cases hvis : x ∈ visited
          · rw [if_neg (by simpa using hvis)] at h
            by_cases hpath : x ∈ name :: path
            · rw [if_pos hpath] at h
              injection h with h'
              injection h' with h1 h2
              subst h1
              subst h2
              refine ⟨(edge_iff vs name x).mpr ⟨hsub x (by simp), hnode⟩, ?_⟩
              exact chain_mem_rtg vs path name x hchain hpath
            · rw [if_neg hpath] at h
              exact ihds name path visited u d
                (fun y hy => hsub y (List.mem_cons_of_mem _ hy)) hchain h
          · rw [if_pos (by simpa using hvis)] at h
            rcases hnode2 : dfsNode vs 0 x (name :: path) visited with e | v2
            · rw [hnode2] at h
              simp [dfsNode] at hnode2
            · rw [hnode2] at h
              simp [dfsNode] at hnode2
              subst hnode2
              exact ihds name path visited u d
                (fun y hy => hsub y (List.mem_cons_of_mem _ hy)) hchain h
        · rw [if_neg hnode] at h
          exact ihds name path visited u d
            (fun y hy => hsub y (List.mem_cons_of_mem _ hy)) hchain h
  | succ fuel ih =>
    have hnodeStep : ∀ name path visited u d,
        List.Chain (fun p q => Edge vs q p) name path →
        dfsNode vs (fuel + 1) name path visited = .error (u, d) →
        Edge vs u d ∧ Relation.ReflTransGen (Edge vs) d u := by
      intro name path visited u d hchain h
      simp only [dfsNode] at h
      exact ih.2 (runAfterOf vs name) name path (name :: visited) u d
        (fun y hy => hy) hchain h
    refine ⟨hnodeStep, ?_⟩
    intro ds
    induction ds with
    | nil => intro name path visited u d _ _ h; simp [dfsDeps] at h
    | cons x ds ihds =>
      intro name path visited u d hsub hchain h
      simp only [dfsDeps] at h
      by_cases hnode : isNodeOf vs x = true
      · rw [if_pos hnode] at h
        by_cases hvis : x ∈ visited
        · rw [if_neg (by simpa using hvis)] at h
          by_cases hpath : x ∈ name :: path
          · rw [if_pos hpath] at h
            injection h with h'
            injection h' with h1 h2
            subst h1
            subst h2
            refine ⟨(edge_iff vs name x).mpr ⟨hsub x (by simp), hnode⟩, ?_⟩
            exact chain_mem_rtg vs path name x hchain hpath
          · rw [if_neg hpath] at h
            exact ihds name path visited u d
              (fun y hy => hsub y (List.mem_cons_of_mem _ hy)) hchain h
        · rw [if_pos (by simpa using hvis)] at h
          rcases hnode2 : dfsNode vs (fuel + 1) x (name :: path) visited
            with e | v2
          · rw [hnode2] at h
            rcases e with ⟨eu, ed⟩
            injection h with h'
            injection h' with h1 h2
            subst h1
            subst h2
            refine hnodeStep x (name :: path) visited eu ed ?_ hnode2
            exact List.chain_cons.mpr
              ⟨(edge_iff vs name x).mpr ⟨hsub x (by simp), hnode⟩, hchain⟩
          · rw [hnode2] at h
            exact ihds name path v2 u d
              (fun y hy => hsub y (List.mem_cons_of_mem _ hy)) hchain h
      · rw [if_neg hnode] at h
        exact ihds name path visited u d
          (fun y hy => hsub y (List.mem_cons_of_mem _ hy)) hchain h

/-- Soundness transported through the top-level loop of `detectCycles`. -/
theorem detectLoop_error_spec (vs : List VInfo) :
    ∀ (ns : List String) (visited : List String) (u d : String),
      detectLoop vs ns visited = .error (u, d) →
      Edge vs u d ∧ Relation.ReflTransGen (Edge vs) d u := by
  intro ns
  induction ns with
  | nil => intro visited u d h; simp [detectLoop] at h
  | cons n ns ih =>
    intro visited u d h
    simp only [detectLoop] at h
    by_cases hvis : n ∈ visited
    · rw [if_pos hvis] at h
      exact ih visited u d h
    · rw [if_neg hvis] at h
      rcases hnode2 : dfsNode vs (vs.length + 1) n [] visited with e | v2
      · rw [hnode2] at h
        rcases e with ⟨eu, ed⟩
        injection h with h'
        injection h' with h1 h2
        subst h1
        subst h2
        exact (dfs_error_spec vs (vs.length + 1)).1 n [] visited eu ed
          List.Chain.nil hnode2
      · rw [hnode2] at h
        exact ih v2 u d h

/-- `detectCycles` only errors on cyclic graphs, and the reported edge
closes a cycle. -/
theorem detectCycles_error_spec (vs : List VInfo) (u d : String)
    (h : detectCycles vs = .error (u, d)) :
    Edge vs u d ∧ Relation.ReflTransGen (Edge vs) d u ∧ HasCycle vs := by
  have hd : (detectLoop vs (nodeNames vs) []).map (fun _ => ()) =
      .error (u, d) := h
  have hloop : detectLoop vs (nodeNames vs) [] = .error (u, d) := by
    rcases hl : detectLoop vs (nodeNames vs) [] with e | v
    · rw [hl] at hd
      simp only [Except.map, Except.error.injEq] at hd
      rw [hd]
    · rw [hl] at hd
      simp [Except.map] at hd
  rcases detectLoop_error_spec vs (nodeNames vs) [] u d hloop with ⟨he, hr⟩
  exact ⟨he, hr, d, Relation.TransGen.tail' hr he⟩

/-! Completeness of cycle detection: a run that reports no error has
explored an acyclic graph.  The invariant: stack nodes are visited;
finished nodes (visited, off-stack) have finished dependencies; nothing
reachable from a finished node lies on a cycle. -/

theorem length_filter_le_of_imp {α} (l : List α) (p q : α → Bool)
    (himp : ∀ a, q a = true → p a = true) :
    (l.filter q).length ≤ (l.filter p).length := by
  induction l with
  | nil => simp
  | cons a l ih =>
    by_cases hqa : q a = true
    · simp [List.filter_cons, hqa, himp a hqa]
      omega
    · by_cases hpa : p a = true <;>
        simp [List.filter_cons, hqa, hpa] <;> omega

theorem length_filter_lt_of_imp {α} (l : List α) (p q : α → Bool)
    (himp : ∀ a, q a = true → p a = true) (x : α) (hx : x ∈ l)
    (hpx : p x = true) (hqx : q x = false) :
    (l.filter q).length < (l.filter p).length := by
  induction l with
  | nil => cases hx
  | cons a l ih =>
    rcases List.mem_cons.mp hx with rfl | hx'
    · simp only [List.filter_cons, hpx, hqx, if_true, if_false,
        Bool.false_eq_true, List.length_cons, reduceIte]
      have := length_filter_le_of_imp l p q himp
      omega
    · by_cases hqa : q a = true
      · simp only [List.filter_cons, hqa, himp a hqa, if_true,
          List.length_cons, reduceIte]
        exact Nat.succ_lt_succ (ih hx')
      · by_cases hpa : p a = true <;>
          simp only [List.filter_cons, hqa, hpa, if_true, if_false,
            Bool.false_eq_true, List.length_cons, reduceIte] <;>
          [exact Nat.lt_succ_of_lt (ih hx'); exact ih hx']

/-- Number of graph nodes not yet visited. -/
def ucount (vs : List VInfo) (visited : List String) : Nat :=
  ((nodeNames vs).filter (fun n => ¬ n ∈ visited)).length

theorem ucount_le_length (vs : List VInfo) (visited : List String) :
    ucount vs visited ≤ vs.length := by
  calc ((nodeNames vs).filter (fun n => ¬ n ∈ visited)).length
      ≤ (nodeNames vs).length := List.length_filter_le _ _
    _ = vs.length := by simp [nodeNames]

theorem ucount_mono (vs : List VInfo) (v1 v2 : List String)
    (h : ∀ x ∈ v1, x ∈ v2) : ucount vs v2 ≤ ucount vs v1 := by
  apply length_filter_le_of_imp
  intro a ha
  simp only [decide_eq_true_eq] at ha ⊢
  exact fun hmem => ha (h a hmem)

theorem ucount_strict (vs : List VInfo) (visited : List String) (n : String)
    (hn : n ∈ nodeNames vs) (hnv : n ∉ visited) :
    ucount vs (n :: visited) < ucount vs visited := by
  apply length_filter_lt_of_imp (nodeNames vs) _ _ ?_ n hn
    (by simpa using hnv) (by simp)
  intro a ha
  simp only [decide_eq_true_eq] at ha ⊢
  exact fun hmem => ha (List.mem_cons_of_mem _ hmem)

/-- The DFS invariant. -/
def KInv (vs : List VInfo) (visited path : List String) : Prop :=
  (∀ x ∈ path, x ∈ visited) ∧
  (∀ x ∈ visited, x ∉ path → ∀ d ∈ presentDeps vs x,
    d ∈ visited ∧ d ∉ path) ∧
  (∀ x ∈ visited, x ∉ path → ∀ w, Relation.ReflTransGen (Edge vs) x w →
    ¬ Relation.TransGen (Edge vs) w w)

theorem kinv_init (vs : List VInfo) : KInv vs [] [] := by
  refine ⟨?_, ?_, ?_⟩ <;> intro x hx <;> cases hx

/-- Marking an unvisited node visited and pushing it on the stack keeps
the invariant. -/
theorem kinv_push (vs : List VInfo) (visited path : List String)
    (name : String) (hK : KInv vs visited path) (hnv : name ∉ visited) :
    KInv vs (name :: visited) (name :: path) := by
  rcases hK with ⟨h1, h2, h3⟩
  refine ⟨?_, ?_, ?_⟩
  · intro x hx
    rcases List.mem_cons.mp hx with rfl | hx'
    · exact List.mem_cons_self _ _
    · exact List.mem_cons_of_mem _ (h1 x hx')
  · intro x hx hxp d hd
    have hxname : x ≠ name := fun heq => hxp (heq ▸ List.mem_cons_self _ _)
    have hxv : x ∈ visited := by
      rcases List.mem_cons.mp hx with rfl | hx'
      · exact absurd rfl hxname
      · exact hx'
    have hxp' : x ∉ path := fun hc => hxp (List.mem_cons_of_mem _ hc)
    rcases h2 x hxv hxp' d hd with ⟨hdv, hdp⟩
    have hdname : d ≠ name := fun heq => hnv (heq ▸ hdv)
    refine ⟨List.mem_cons_of_mem _ hdv, ?_⟩
    intro hc
    rcases List.mem_cons.mp hc with rfl | hc'
    · exact hdname rfl
    · exact hdp hc'
  · intro x hx hxp w hw
    have hxname : x ≠ name := fun heq => hxp (heq ▸ List.mem_cons_self _ _)
    have hxv : x ∈ visited := by
      rcases List.mem_cons.mp hx with rfl | hx'
      · exact absurd rfl hxname
      · exact hx'
    have hxp' : x ∉ path := fun hc => hxp (List.mem_cons_of_mem _ hc)
    exact h3 x hxv hxp' w hw

/-- Popping a node whose present dependencies are all finished keeps the
invariant: the popped node becomes a finished node. -/
theorem kinv_pop (vs : List VInfo) (out path0 : List String) (name : String)
    (hK : KInv vs out (name :: path0)) (hname : name ∈ out)
    (hdeps : ∀ d ∈ presentDeps vs name, d ∈ out ∧ d ∉ name :: path0) :
    KInv vs out path0 := by
  rcases hK with ⟨h1, h2, h3⟩
  have hnofin : ∀ d ∈ presentDeps vs name,
      ∀ w, Relation.ReflTransGen (Edge vs) d w →
        ¬ Relation.TransGen (Edge vs) w w := by
    intro d hd w hw
    rcases hdeps d hd with ⟨hdo, hdp⟩
    exact h3 d hdo hdp w hw
  have hname3 : ∀ w, Relation.ReflTransGen (Edge vs) name w →
      ¬ Relation.TransGen (Edge vs) w w := by
    intro w hw hcyc
    rcases Relation.ReflTransGen.cases_head hw with rfl | ⟨d, hed, hdw⟩
    · rcases (Relation.TransGen.head'_iff).mp hcyc with ⟨d, hed, hdw⟩
      exact hnofin d hed name hdw hcyc
    · exact hnofin d hed w hdw hcyc
  refine ⟨?_, ?_, ?_⟩
  · exact fun x hx => h1 x (List.mem_cons_of_mem _ hx)
  · intro x hx hxp d hd
    by_cases hxn : x = name
    · subst hxn
      rcases hdeps d hd with ⟨hdo, hdp⟩
      exact ⟨hdo, fun hc => hdp (List.mem_cons_of_mem _ hc)⟩
    · have hxp' : x ∉ name :: path0 := by
        intro hc
        rcases List.mem_cons.mp hc with rfl | hc'
        · exact hxn rfl
        · exact hxp hc'
      rcases h2 x hx hxp' d hd with ⟨hdo, hdp⟩
      exact ⟨hdo, fun hc => hdp (List.mem_cons_of_mem _ hc)⟩
  · intro x hx hxp w hw
    by_cases hxn : x = name
    · subst hxn
      exact hname3 w hw
    · have hxp' : x ∉ name :: path0 := by
        intro hc
        rcases List.mem_cons.mp hc with rfl | hc'
        · exact hxn rfl
        · exact hxp hc'
      exact h3 x hx hxp' w hw

/-- Postcondition of a successful DFS step: the visited set only grows,
the argument node ends up visited, and the invariant is maintained; for
the dependency loop, every present dependency in the processed list ends
up finished. -/
theorem dfs_ok_spec (vs : List VInfo) : ∀ fuel : Nat,
    (∀ name path visited out,
      isNodeOf vs name = true →
      name ∉ visited →
      KInv vs visited path →
      ucount vs visited < fuel →
      dfsNode vs fuel name path visited = .ok out →
      (∀ x ∈ visited, x ∈ out) ∧ name ∈ out ∧ KInv vs out path) ∧
    (∀ ds name path visited out,
      KInv vs visited (name :: path) →
      ucount vs visited < fuel →
      dfsDeps vs (dfsNode vs fuel) ds name (name :: path) visited =
        .ok out →
      (∀ x ∈ visited, x ∈ out) ∧ KInv vs out (name :: path) ∧
      (∀ d ∈ ds, isNodeOf vs d = true → d ∈ out ∧ d ∉ name :: path)) := by
  intro fuel
  induction fuel with
  | zero =>
    constructor
    · intro name path visited out _ _ _ hfuel _
      exact absurd hfuel (Nat.not_lt_zero _)
    · intro ds name path visited out _ hfuel _
      exact absurd hfuel (Nat.not_lt_zero _)
  | succ fuel ih =>
    have hnode : ∀ name path visited out,
        isNodeOf vs name = true →
        name ∉ visited →
        KInv vs visited path →
        ucount vs visited < fuel + 1 →
        dfsNode vs (fuel + 1) name path visited = .ok out →
        (∀ x ∈ visited, x ∈ out) ∧ name ∈ out ∧ KInv vs out path := by
      intro name path visited out hnn hnv hK hfuel h
      simp only [dfsNode] at h
      have hstrict : ucount vs (name :: visited) < fuel := by
        have h1 : ucount vs (name :: visited) < ucount vs visited :=
          ucount_strict vs visited name
            ((isNodeOf_iff_mem vs name).mp hnn) hnv
        omega
      rcases ih.2 (runAfterOf vs name) name path (name :: visited) out
        (kinv_push vs visited path name hK hnv) hstrict h with
        ⟨hsub, hKout, hdeps⟩
      refine ⟨fun x hx => hsub x (List.mem_cons_of_mem _ hx),
        hsub name (List.mem_cons_self _ _), ?_⟩
      apply kinv_pop vs out path name hKout
        (hsub name (List.mem_cons_self _ _))
      intro d hd
      rcases List.mem_filter.mp hd with ⟨hdr, hdn⟩
      exact hdeps d hdr hdn
    refine ⟨hnode, ?_⟩
    intro ds
    induction ds with
    | nil =>
      intro name path visited out hK hfuel h
      simp only [dfsDeps] at h
      injection h with h'
      subst h'
      exact ⟨fun x hx => hx, hK, by simp⟩
    | cons d ds ihds =>
      intro name path visited out hK hfuel h
      simp only [dfsDeps] at h
      by_cases hnd : isNodeOf vs d = true
      · rw [if_pos hnd] at h
        by_cases hvis : d ∈ visited
        · rw [if_neg (by simpa using hvis)] at h
          by_cases hpth : d ∈ name :: path
          · rw [if_pos hpth] at h
            exact Except.noConfusion h
          · rw [if_neg hpth] at h
            rcases ihds name path visited out hK hfuel h with
              ⟨hsub, hKout, hrest⟩
            refine ⟨hsub, hKout, ?_⟩
            intro x hx hxn
            rcases List.mem_cons.mp hx with rfl | hx'
            · exact ⟨hsub x hvis, hpth⟩
            · exact hrest x hx' hxn
        · rw [if_pos (by simpa using hvis)] at h
          rcases hcall : dfsNode vs (fuel + 1) d (name :: path) visited
            with e | v2
          · rw [hcall] at h
            exact Except.noConfusion h
          · rw [hcall] at h
            rcases hnode d (name :: path) visited v2 hnd hvis hK hfuel hcall
              with ⟨hsub1, hdin, hK2⟩
            have hfuel2 : ucount vs v2 < fuel + 1 :=
              Nat.lt_of_le_of_lt (ucount_mono vs visited v2 hsub1) hfuel
            rcases ihds name path v2 out hK2 hfuel2 h with
              ⟨hsub2, hKout, hrest⟩
            have hdnp : d ∉ name :: path := by
              intro hc
              exact hvis (hK.1 d hc)
            refine ⟨fun x hx => hsub2 x (hsub1 x hx), hKout, ?_⟩
            intro x hx hxn
            rcases List.mem_cons.mp hx with rfl | hx'
            · exact ⟨hsub2 x hdin, hdnp⟩
            · exact hrest x hx' hxn
      · rw [if_neg hnd] at h
        rcases ihds name path visited out hK hfuel h with ⟨hsub, hKout, hrest⟩
        refine ⟨hsub, hKout, ?_⟩
        intro x hx hxn
        rcases List.mem_cons.mp hx with rfl | hx'
        · exact absurd hxn (by simpa using hnd)
        · exact hrest x hx' hxn

theorem edge_src_node (vs : List VInfo) (a b : String) (h : Edge vs a b) :
    isNodeOf vs a = true := by
  unfold Edge presentDeps runAfterOf at h
  rcases hl : lookupV vs a with _ | v
  · rw [hl] at h
    simp at h
  · simp [isNodeOf, hl]

theorem detectLoop_ok_spec (vs : List VInfo) :
    ∀ (ns visited out : List String),
      (∀ n ∈ ns, n ∈ nodeNames vs) →
      KInv vs visited [] →
      detectLoop vs ns visited = .ok out →
      KInv vs out [] ∧ (∀ n ∈ ns, n ∈ out) ∧ (∀ x ∈ visited, x ∈ out) := by
  intro ns
  induction ns with
  | nil =>
    intro visited out _ hK h
    simp only [detectLoop] at h
    injection h with h'
    subst h'
    exact ⟨hK, by simp, fun x hx => hx⟩
  | cons n ns ih =>
    intro visited out hns hK h
    simp only [detectLoop] at h
    by_cases hvis : n ∈ visited
    · rw [if_pos hvis] at h
      rcases ih visited out (fun m hm => hns m (List.mem_cons_of_mem _ hm))
        hK h with ⟨hKout, hmem, hsub⟩
      exact ⟨hKout, fun m hm => by
        rcases List.mem_cons.mp hm with rfl | hm'
        · exact hsub m hvis
        · exact hmem m hm', hsub⟩
    · rw [if_neg hvis] at h
      rcases hcall : dfsNode vs (vs.length + 1) n [] visited with e | v2
      · rw [hcall] at h
        exact Except.noConfusion h
      · rw [hcall] at h
        have hnn : isNodeOf vs n = true :=
          (isNodeOf_iff_mem vs n).mpr (hns n (List.mem_cons_self _ _))
        have hfuel : ucount vs visited < vs.length + 1 :=
          Nat.lt_succ_of_le (ucount_le_length vs visited)
        rcases (dfs_ok_spec vs (vs.length + 1)).1 n [] visited v2 hnn hvis hK
          hfuel hcall with ⟨hsub1, hnin, hK2⟩
        rcases ih v2 out (fun m hm => hns m (List.mem_cons_of_mem _ hm))
          hK2 h with ⟨hKout, hmem, hsub2⟩
        refine ⟨hKout, ?_, fun x hx => hsub2 x (hsub1 x hx)⟩
        intro m hm
        rcases List.mem_cons.mp hm with rfl | hm'
        · exact hsub2 m hnin
        · exact hmem m hm'

/-- A graph on which `detectCycles` reports no error is acyclic. -/
theorem detectCycles_ok_acyclic (vs : List VInfo)
    (h : detectCycles vs = .ok ()) : ¬ HasCycle vs := by
  rintro ⟨v, hcyc⟩
  have hloop : ∃ out, detectLoop vs (nodeNames vs) [] = .ok out := by
    rcases hl : detectLoop vs (nodeNames vs) [] with e | out
    · have hd : (detectLoop vs (nodeNames vs) []).map (fun _ => ()) =
          .ok () := h
      rw [hl] at hd
      simp [Except.map] at hd
    · exact ⟨out, rfl⟩
  rcases hloop with ⟨out, hl⟩
  rcases detectLoop_ok_spec vs (nodeNames vs) [] out (fun n hn => hn)
    (kinv_init vs) hl with ⟨hKout, hmem, -⟩
  have hvnode : v ∈ nodeNames vs := by
    rcases (Relation.TransGen.head'_iff).mp hcyc with ⟨d, hed, -⟩
    exact (isNodeOf_iff_mem vs v).mp (edge_src_node vs v d hed)
  exact hKout.2.2 v (hmem v hvnode) (by simp) v Relation.ReflTransGen.refl hcyc

/-- With unique names, a registered validator is what lookup by its name
finds. -/
theorem lookupV_self (vs : List VInfo) (hnd : (nodeNames vs).Nodup)
    (v : VInfo) (hv : v ∈ vs) : lookupV vs v.name = some v := by
  induction vs with
  | nil => cases hv
  | cons w ws ih =>
    rcases List.mem_cons.mp hv with rfl | hv'
    · simp [lookupV]
    · have hwn : w.name ≠ v.name := by
        intro heq
        have : v.name ∈ nodeNames ws :=
          List.mem_map.mpr ⟨v, hv', rfl⟩
        rw [nodeNames, List.map_cons] at hnd
        exact (List.nodup_cons.mp hnd).1 (heq ▸ this)
      have := ih (by
        rw [nodeNames, List.map_cons] at hnd
        exact (List.nodup_cons.mp hnd).2) hv'
      simpa [lookupV, List.find?_cons, hwn] using this

/-- C3: `ResolveExecutionGroups` fails — producing no groups — exactly
when the induced dependency graph (after dropping edges to absent names)
has a cycle; a validator listing its own name in `run_after` is such a
cycle; and the reported pair (u, d), rendered in the error message
"circular dependency detected: u -> d", is an edge of the induced graph
that closes a cycle (d reaches u, and u → d completes the loop). -/
theorem resolver_cycle_iff (vs : List VInfo)
    (hnd : (nodeNames vs).Nodup) :
    ((∃ e, ResolveExecutionGroups vs = .error e) ↔ HasCycle vs) ∧
    (∀ u d, detectCycles vs = .error (u, d) →
      Edge vs u d ∧ Relation.ReflTransGen (Edge vs) d u ∧
      ResolveExecutionGroups vs =
        .error ("circular dependency detected: " ++ u ++ " -> " ++ d)) ∧
    (∀ v ∈ vs, v.name ∈ v.runAfter → ∃ e,
      ResolveExecutionGroups vs = .error e) := by
  have herr : ∀ u d, detectCycles vs = .error (u, d) →
      Edge vs u d ∧ Relation.ReflTransGen (Edge vs) d u ∧
      ResolveExecutionGroups vs =
        .error ("circular dependency detected: " ++ u ++ " -> " ++ d) := by
    intro u d hd
    rcases detectCycles_error_spec vs u d hd with ⟨he, hr, -⟩
    refine ⟨he, hr, ?_⟩
    rw [ResolveExecutionGroups, hd]
  have hiff : (∃ e, ResolveExecutionGroups vs = .error e) ↔ HasCycle vs := by
    constructor
    · rintro ⟨e, he⟩
      rcases hd : detectCycles vs with ⟨u, d⟩ | u
      · exact (detectCycles_error_spec vs u d hd).2.2
      · rw [ResolveExecutionGroups, hd] at he
        exact Except.noConfusion he
    · intro hcyc
      rcases hd : detectCycles vs with ⟨u, d⟩ | u
      · exact ⟨_, by rw [ResolveExecutionGroups, hd]⟩
      · cases u
        exact absurd hcyc (detectCycles_ok_acyclic vs hd)
  refine ⟨hiff, herr, ?_⟩
  intro v hv hself
  apply hiff.mpr
  have hlook : lookupV vs v.name = some v := lookupV_self vs hnd v hv
  have hedge : Edge vs v.name v.name := by
    rw [edge_iff]
    constructor
    · rw [runAfterOf, hlook]
      exact hself
    · simp [isNodeOf, hlook]
  exact ⟨v.name, Relation.TransGen.single hedge⟩

/-- Witness for `resolver_cycle_iff`: a two-validator cycle a ⇄ b is
rejected with the edge that closes the cycle. -/
theorem resolver_cycle_iff_witness :
    ResolveExecutionGroups
      [{ name := "a", runAfter := ["b"], enabled := true,
         res := { validatorName := "", status := .success,
                  reason := "OK", message := "ok" } },
       { name := "b", runAfter := ["a"], enabled := true,
         res := { validatorName := "", status := .success,
                  reason := "OK", message := "ok" } }] =
      .error "circular dependency detected: b -> a" := by
  have h := (resolver_cycle_iff
    [{ name := "a", runAfter := ["b"], enabled := true,
       res := { validatorName := "", status := .success,
                reason := "OK", message := "ok" } },
     { name := "b", runAfter := ["a"], enabled := true,
       res := { validatorName := "", status := .success,
                reason := "OK", message := "ok" } }]
    (by decide)).2.1 "b" "a" (by rfl)
  exact h.2.2

/-! Level assignment: the memo table of `assignLevels` is consistent — each
entry equals one plus the maximum of its present dependencies' levels. -/

theorem nodup_subset_length_le {l l' : List String} (hnd : l.Nodup)
    (hsub : ∀ x ∈ l, x ∈ l') : l.length ≤ l'.length :=
  (hnd.subperm hsub).length_le

theorem foldl_max_ge_init (l : List Int) (acc : Int) :
    acc ≤ l.foldl max acc := by
  induction l generalizing acc with
  | nil => simp
  | cons x xs ih =>
    exact le_trans (le_max_left acc x) (ih (max acc x))

theorem foldl_max_ge_mem (l : List Int) (acc x : Int) (hx : x ∈ l) :
    x ≤ l.foldl max acc := by
  induction l generalizing acc with
  | nil => cases hx
  | cons y ys ih =>
    rcases List.mem_cons.mp hx with rfl | hx'
    · exact le_trans (le_max_right acc x) (foldl_max_ge_init ys (max acc x))
    · exact ih (max acc y) hx'

theorem foldl_max_attained (l : List Int) (acc : Int) :
    l.foldl max acc = acc ∨ l.foldl max acc ∈ l := by
  induction l generalizing acc with
  | nil => exact Or.inl rfl
  | cons y ys ih =>
    rcases ih (max acc y) with h | h
    · rcases max_cases acc y with ⟨hm, -⟩ | ⟨hm, -⟩
      · exact Or.inl (by rw [List.foldl_cons, h, hm])
      · exact Or.inr (by rw [List.foldl_cons, h, hm]; exact List.mem_cons_self _ _)
    · exact Or.inr (List.mem_cons_of_mem _ h)

theorem lookupLvl_cons (t : List (String × Int)) (name n : String) (l : Int) :
    lookupLvl ((name, l) :: t) n = if name = n then some l else lookupLvl t n := by
  by_cases h : name = n <;> simp [lookupLvl, List.find?_cons, h]

/-- `1 + max of the table levels of the present dependencies` as the Go
code computes it (running maximum starting at -1; the memo lookups are
all hits when the table is consistent). -/
def depMax (vs : List VInfo) (t : List (String × Int)) (n : String) : Int :=
  ((presentDeps vs n).map (fun d => (lookupLvl t d).getD 0)).foldl max (-1)

/-- Consistency of the memo table: every entry belongs to a node, its
present dependencies are all memoised, and its value is one plus their
maximum level. -/
def TableOK (vs : List VInfo) (t : List (String × Int)) : Prop :=
  ∀ n l, lookupLvl t n = some l →
    isNodeOf vs n = true ∧
    (∀ d ∈ presentDeps vs n, (lookupLvl t d).isSome) ∧
    l = depMax vs t n + 1

theorem depMax_congr (vs : List VInfo) (t t' : List (String × Int))
    (n : String)
    (h : ∀ d ∈ presentDeps vs n, lookupLvl t' d = lookupLvl t d) :
    depMax vs t' n = depMax vs t n := by
  unfold depMax
  congr 1
  exact List.map_congr_left (fun d hd => by rw [h d hd])

theorem tableOK_insert (vs : List VInfo) (t : List (String × Int))
    (name : String) (l : Int)
    (hOK : TableOK vs t)
    (hfresh : lookupLvl t name = none)
    (hnode : isNodeOf vs name = true)
    (hdeps : ∀ d ∈ presentDeps vs name, (lookupLvl t d).isSome)
    (hl : l = depMax vs t name + 1) :
    TableOK vs ((name, l) :: t) := by
  have hstable : ∀ n, (∀ d ∈ presentDeps vs n, (lookupLvl t d).isSome) →
      ∀ d ∈ presentDeps vs n,
        lookupLvl ((name, l) :: t) d = lookupLvl t d := by
    intro n hn d hd
    rw [lookupLvl_cons]
    have hne : name ≠ d := by
      intro heq
      rw [← heq] at hd
      have := hn name hd
      rw [hfresh] at this
      simp at this
    rw [if_neg hne]
  intro n l' hn
  rw [lookupLvl_cons] at hn
  by_cases heq : name = n
  · subst heq
    rw [if_pos rfl] at hn
    injection hn with hn
    subst hn
    have hstable' := hstable name hdeps
    refine ⟨hnode, ?_, ?_⟩
    · intro d hd
      rw [hstable' d hd]
      exact hdeps d hd
    · rw [depMax_congr vs t ((name, l) :: t) name hstable']
      exact hl
  · rw [if_neg heq] at hn
    rcases hOK n l' hn with ⟨hnn, hnd, hnl⟩
    have hstable' := hstable n hnd
    refine ⟨hnn, ?_, ?_⟩
    · intro d hd
      rw [hstable' d hd]
      exact hnd d hd
    · rw [depMax_congr vs t ((name, l) :: t) n hstable']
      exact hnl

theorem tableOK_nil (vs : List VInfo) : TableOK vs [] := by
  intro n l h
  simp [lookupLvl] at h

/-- Correctness of the memoised level computation on an acyclic graph: it
terminates within the depth budget, preserves and extends a consistent
table, memoises the argument node, and only adds nodes reachable from it.
The ghost `stack` is the chain of callers, used to bound the recursion
depth: its nodes are distinct because the graph is acyclic. -/
theorem calc_ok_spec (vs : List VInfo) (hacyc : ¬ HasCycle vs) :
    ∀ fuel : Nat,
    (∀ name stack t,
      isNodeOf vs name = true →
      TableOK vs t →
      List.Chain (fun p q => Edge vs q p) name stack →
      (name :: stack).Nodup →
      (∀ s ∈ name :: stack, isNodeOf vs s = true) →
      vs.length + 1 ≤ fuel + stack.length →
      ∃ t' l, calcLevel vs fuel name t = (t', l) ∧
        TableOK vs t' ∧
        lookupLvl t' name = some l ∧
        (∀ n v, lookupLvl t n = some v → lookupLvl t' n = some v) ∧
        (∀ n, lookupLvl t n = none → (lookupLvl t' n).isSome →
          Relation.ReflTransGen (Edge vs) name n)) ∧
    (∀ ds name stack t acc,
      (∀ x ∈ ds, x ∈ runAfterOf vs name) →
      TableOK vs t →
      List.Chain (fun p q => Edge vs q p) name stack →
      (name :: stack).Nodup →
      (∀ s ∈ name :: stack, isNodeOf vs s = true) →
      vs.length + 1 ≤ fuel + stack.length + 1 →
      ∃ t2 m, calcDeps vs (calcLevel vs fuel) ds t acc = (t2, m) ∧
        TableOK vs t2 ∧
        (∀ n v, lookupLvl t n = some v → lookupLvl t2 n = some v) ∧
        (∀ n, lookupLvl t n = none → (lookupLvl t2 n).isSome →
          ∃ d ∈ ds, isNodeOf vs d = true ∧
            Relation.ReflTransGen (Edge vs) d n) ∧
        (∀ d ∈ ds, isNodeOf vs d = true → (lookupLvl t2 d).isSome) ∧
        m = ((ds.filter (fun d => isNodeOf vs d)).map
          (fun d => (lookupLvl t2 d).getD 0)).foldl max acc) := by
  have hlen : ∀ (name : String) (stack : List String),
      (name :: stack).Nodup →
      (∀ s ∈ name :: stack, isNodeOf vs s = true) →
      stack.length + 1 ≤ vs.length := by
    intro name stack hnd hnodes
    have hsub : ∀ x ∈ name :: stack, x ∈ nodeNames vs := fun x hx =>
      (isNodeOf_iff_mem vs x).mp (hnodes x hx)
    have := nodup_subset_length_le hnd hsub
    simpa [nodeNames] using this
  intro fuel
  induction fuel with
  | zero =>
    constructor
    · intro name stack t _ _ _ hnd hnodes hfuel
      have := hlen name stack hnd hnodes
      omega
    · intro ds name stack t acc _ _ _ hnd hnodes hfuel
      have := hlen name stack hnd hnodes
      omega
  | succ fuel ih =>
    have hnode : ∀ name stack t,
        isNodeOf vs name = true →
        TableOK vs t →
        List.Chain (fun p q => Edge vs q p) name stack →
        (name :: stack).Nodup →
        (∀ s ∈ name :: stack, isNodeOf vs s = true) →
        vs.length + 1 ≤ (fuel + 1) + stack.length →
        ∃ t' l, calcLevel vs (fuel + 1) name t = (t', l) ∧
          TableOK vs t' ∧
          lookupLvl t' name = some l ∧
          (∀ n v, lookupLvl t n = some v → lookupLvl t' n = some v) ∧
          (∀ n, lookupLvl t n = none → (lookupLvl t' n).isSome →
            Relation.ReflTransGen (Edge vs) name n) := by
      intro name stack t hnn hOK hchain hnd hnodes hfuel
      rcases hmemo : lookupLvl t name with _ | l0
      · rcases ih.2 (runAfterOf vs name) name stack t (-1)
          (fun x hx => hx) hOK hchain hnd hnodes (by omega) with
          ⟨t2, m, hr, hOK2, hpres, hnew, hdp, hm⟩
        have hfresh : lookupLvl t2 name = none := by
          rcases hl2 : lookupLvl t2 name with _ | v
          · rfl
          · rcases hnew name hmemo (by rw [hl2]; rfl) with ⟨d, hdm, hdn, hdr⟩
            have hedge : Edge vs name d :=
              (edge_iff vs name d).mpr ⟨hdm, hdn⟩
            exact absurd ⟨d, Relation.TransGen.tail' hdr hedge⟩ hacyc
        refine ⟨(name, m + 1) :: t2, m + 1, ?_, ?_, ?_, ?_, ?_⟩
        · simp only [calcLevel, hmemo, hr]
        · refine tableOK_insert vs t2 name (m + 1) hOK2 hfresh hnn ?_ ?_
          · intro d hd
            rcases List.mem_filter.mp hd with ⟨hdr, hdn⟩
            exact hdp d hdr hdn
          · rw [hm]
            rfl
        · rw [lookupLvl_cons, if_pos rfl]
        · intro n v hv
          rw [lookupLvl_cons]
          have hne : name ≠ n := by
            intro heq
            rw [heq] at hmemo
            rw [hmemo] at hv
            exact Option.noConfusion hv
          rw [if_neg hne]
          exact hpres n v hv
        · intro n hnone hsome
          rw [lookupLvl_cons] at hsome
          by_cases heq : name = n
          · exact heq ▸ Relation.ReflTransGen.refl
          · rw [if_neg heq] at hsome
            rcases hnew n hnone hsome with ⟨d, hdm, hdn, hdr⟩
            exact Relation.ReflTransGen.head
              ((edge_iff vs name d).mpr ⟨hdm, hdn⟩) hdr
      · refine ⟨t, l0, ?_, hOK, hmemo, fun n v hv => hv, ?_⟩
        · simp only [calcLevel, hmemo]
        · intro n hnone hsome
          rw [hnone] at hsome
          exact absurd hsome (by simp)
    refine ⟨hnode, ?_⟩
    intro ds
    induction ds with
    | nil =>
      intro name stack t acc _ hOK _ _ _ _
      exact ⟨t, acc, rfl, hOK, fun n v hv => hv,
        fun n hn hs => absurd hs (by rw [hn]; simp), by simp, by simp⟩
    | cons d ds ihds =>
      intro name stack t acc hsub hOK hchain hnd hnodes hfuel
      by_cases hdn : isNodeOf vs d = true
      · have hedge : Edge vs name d :=
          (edge_iff vs name d).mpr ⟨hsub d (List.mem_cons_self _ _), hdn⟩
        have hnotin : d ∉ name :: stack := by
          intro hc
          have hrtg := chain_mem_rtg vs stack name d hchain hc
          exact hacyc ⟨d, Relation.TransGen.tail' hrtg hedge⟩
        rcases hnode d (name :: stack) t hdn hOK
          (List.chain_cons.mpr ⟨hedge, hchain⟩)
          (List.nodup_cons.mpr ⟨hnotin, hnd⟩)
          (fun s hs => by
            rcases List.mem_cons.mp hs with rfl | hs'
            · exact hdn
            · exact hnodes s hs')
          (by simp only [List.length_cons]; omega) with
          ⟨t1, ld, hr1, hOK1, hld, hpres1, hnew1⟩
        rcases ihds name stack t1 (max acc ld) (fun x hx =>
            hsub x (List.mem_cons_of_mem _ hx)) hOK1 hchain hnd hnodes hfuel
          with ⟨t2, m, hr2, hOK2, hpres2, hnew2, hdp2, hm2⟩
        refine ⟨t2, m, ?_, hOK2, ?_, ?_, ?_, ?_⟩
        · simp only [calcDeps, if_pos hdn, hr1]
          exact hr2
        · exact fun n v hv => hpres2 n v (hpres1 n v hv)
        · intro n hnone hsome
          rcases h1 : lookupLvl t1 n with _ | v1
          · rcases hnew2 n h1 hsome with ⟨d', hd'm, hd'n, hd'r⟩
            exact ⟨d', List.mem_cons_of_mem _ hd'm, hd'n, hd'r⟩
          · have := hnew1 n hnone (by rw [h1]; rfl)
            exact ⟨d, List.mem_cons_self _ _, hdn, this⟩
        · intro d' hd' hd'n
          rcases List.mem_cons.mp hd' with rfl | hd''
          · rw [hpres2 d' ld hld]
            rfl
          · exact hdp2 d' hd'' hd'n
        · rw [hm2]
          simp only [List.filter_cons, hdn, if_pos, List.map_cons,
            List.foldl_cons, reduceIte]
          congr 2
          rw [hpres2 d ld hld]
          rfl
      · rcases ihds name stack t acc (fun x hx =>
            hsub x (List.mem_cons_of_mem _ hx)) hOK hchain hnd hnodes hfuel
          with ⟨t2, m, hr2, hOK2, hpres2, hnew2, hdp2, hm2⟩
        refine ⟨t2, m, ?_, hOK2, hpres2, ?_, ?_, ?_⟩
        · simp only [calcDeps, hdn]
          simpa using hr2
        · intro n hnone hsome
          rcases hnew2 n hnone hsome with ⟨d', hd'm, hd'n, hd'r⟩
          exact ⟨d', List.mem_cons_of_mem _ hd'm, hd'n, hd'r⟩
        · intro d' hd' hd'n
          rcases List.mem_cons.mp hd' with rfl | hd''
          · exact absurd hd'n (by simpa using hdn)
          · exact hdp2 d' hd'' hd'n
        · rw [hm2]
          simp [List.filter_cons, hdn]

theorem assignLoop_spec (vs : List VInfo) (hacyc : ¬ HasCycle vs) :
    ∀ (ns : List String) (t : List (String × Int)),
      (∀ n ∈ ns, isNodeOf vs n = true) →
      TableOK vs t →
      TableOK vs (assignLoop vs ns t) ∧
      (∀ n ∈ ns, (lookupLvl (assignLoop vs ns t) n).isSome) ∧
      (∀ n v, lookupLvl t n = some v →
        lookupLvl (assignLoop vs ns t) n = some v) := by
  intro ns
  induction ns with
  | nil =>
    intro t _ hOK
    exact ⟨hOK, by simp, fun n v hv => hv⟩
  | cons n ns ih =>
    intro t hns hOK
    rcases (calc_ok_spec vs hacyc (vs.length + 1)).1 n [] t
      (hns n (List.mem_cons_self _ _)) hOK List.Chain.nil (by simp)
      (by
        intro s hs
        rcases List.mem_cons.mp hs with heq | hs'
        · rw [heq]
          exact hns n (List.mem_cons_self _ _)
        · cases hs')
      (by simp) with ⟨t', l, heq, hOK', hl', hpres, -⟩
    have hstep : assignLoop vs (n :: ns) t = assignLoop vs ns t' := by
      simp only [assignLoop, heq]
    rcases ih t' (fun m hm => hns m (List.mem_cons_of_mem _ hm)) hOK' with
      ⟨hOK2, hmem2, hpres2⟩
    rw [hstep]
    refine ⟨hOK2, ?_, fun m v hv => hpres2 m v (hpres m v hv)⟩
    intro m hm
    rcases List.mem_cons.mp hm with rfl | hm'
    · rw [hpres2 m l hl']
      rfl
    · exact hmem2 m hm'

theorem assignLevels_spec (vs : List VInfo) (hacyc : ¬ HasCycle vs) :
    TableOK vs (assignLevels vs) ∧
    (∀ n, isNodeOf vs n = true →
      (lookupLvl (assignLevels vs) n).isSome) := by
  rcases assignLoop_spec vs hacyc (nodeNames vs) []
    (fun n hn => (isNodeOf_iff_mem vs n).mpr hn) (tableOK_nil vs) with
    ⟨hOK, hmem, -⟩
  exact ⟨hOK, fun n hn => hmem n ((isNodeOf_iff_mem vs n).mp hn)⟩

/-- Level read with the Go zero value for a missing key. -/
def levelOf (t : List (String × Int)) (n : String) : Int :=
  (lookupLvl t n).getD 0

/-- Every node's memoised level satisfies the defining equation
`level = 1 + max(level of present dependencies)` (so 0 with no present
dependency). -/
theorem level_defining_eq (vs : List VInfo) (hacyc : ¬ HasCycle vs)
    (n : String) (hn : isNodeOf vs n = true) :
    lookupLvl (assignLevels vs) n =
      some (depMax vs (assignLevels vs) n + 1) := by
  rcases assignLevels_spec vs hacyc with ⟨hOK, hmem⟩
  rcases Option.isSome_iff_exists.mp (hmem n hn) with ⟨l, hl⟩
  rcases hOK n l hl with ⟨-, -, hval⟩
  rw [hl, hval]

theorem level_nonneg (vs : List VInfo) (hacyc : ¬ HasCycle vs)
    (n : String) (hn : isNodeOf vs n = true) :
    0 ≤ levelOf (assignLevels vs) n := by
  rw [levelOf, level_defining_eq vs hacyc n hn]
  have := foldl_max_ge_init
    ((presentDeps vs n).map
      (fun d => (lookupLvl (assignLevels vs) d).getD 0)) (-1)
  simp only [Option.getD_some]
  unfold depMax
  omega

/-- Levels strictly decrease along every followed dependency edge. -/
theorem level_edge_lt (vs : List VInfo) (hacyc : ¬ HasCycle vs)
    (a b : String) (hE : Edge vs a b) :
    levelOf (assignLevels vs) b < levelOf (assignLevels vs) a := by
  have ha : isNodeOf vs a = true := edge_src_node vs a b hE
  have hmem : levelOf (assignLevels vs) b ∈
      (presentDeps vs a).map
        (fun d => (lookupLvl (assignLevels vs) d).getD 0) :=
    List.mem_map.mpr ⟨b, hE, rfl⟩
  have hle := foldl_max_ge_mem _ (-1) _ hmem
  unfold levelOf at hle ⊢
  rw [level_defining_eq vs hacyc a ha]
  simp only [Option.getD_some]
  unfold depMax
  omega

theorem mem_insertByName (v x : VInfo) (l : List VInfo) :
    x ∈ insertByName v l ↔ x = v ∨ x ∈ l := by
  induction l with
  | nil => simp [insertByName]
  | cons w ws ih =>
    by_cases h : v.name ≤ w.name
    · simp [insertByName, h]
    · simp only [insertByName, h, if_false, List.mem_cons, ih, reduceIte]
      tauto

theorem pairwise_insertByName (v : VInfo) (l : List VInfo)
    (h : l.Pairwise (fun a b => a.name ≤ b.name)) :
    (insertByName v l).Pairwise (fun a b => a.name ≤ b.name) := by
  induction l with
  | nil => simp [insertByName]
  | cons w ws ih =>
    rcases List.pairwise_cons.mp h with ⟨hw, hws⟩
    by_cases hvw : v.name ≤ w.name
    · rw [insertByName, if_pos hvw]
      refine List.pairwise_cons.mpr ⟨?_, h⟩
      intro x hx
      rcases List.mem_cons.mp hx with rfl | hx'
      · exact hvw
      · exact le_trans hvw (hw x hx')
    · rw [insertByName, if_neg hvw]
      refine List.pairwise_cons.mpr ⟨?_, ih hws⟩
      intro x hx
      rcases (mem_insertByName v x ws).mp hx with rfl | hx'
      · exact le_of_not_le hvw
      · exact hw x hx'

theorem sortByName_sorted (l : List VInfo) :
    (sortByName l).Pairwise (fun a b => a.name ≤ b.name) := by
  unfold sortByName
  induction l with
  | nil => simp
  | cons v ws ih => exact pairwise_insertByName v _ ih

theorem mem_sortByName (l : List VInfo) (v : VInfo) :
    v ∈ sortByName l ↔ v ∈ l := by
  unfold sortByName
  induction l with
  | nil => simp
  | cons w ws ih =>
    simp only [List.foldr_cons, mem_insertByName, ih, List.mem_cons]

/-- If a node sits at level ℓ + 1 ≥ 1, some node sits at level ℓ: the
maximal present dependency. -/
theorem occupied_pred (vs : List VInfo) (hacyc : ¬ HasCycle vs) (ℓ : Int)
    (hpos : 0 ≤ ℓ)
    (h : ∃ v ∈ vs, levelOf (assignLevels vs) v.name = ℓ + 1) :
    ∃ u ∈ vs, levelOf (assignLevels vs) u.name = ℓ := by
  rcases h with ⟨v, hv, hlv⟩
  have hnode : isNodeOf vs v.name = true :=
    (isNodeOf_iff_mem vs v.name).mpr (List.mem_map.mpr ⟨v, hv, rfl⟩)
  have hdef := level_defining_eq vs hacyc v.name hnode
  rw [levelOf, hdef] at hlv
  simp only [Option.getD_some] at hlv
  have hdm : depMax vs (assignLevels vs) v.name = ℓ := by omega
  rcases foldl_max_attained
      ((presentDeps vs v.name).map
        (fun d => (lookupLvl (assignLevels vs) d).getD 0)) (-1) with hc | hc
  · rw [depMax] at hdm
    omega
  · rw [depMax] at hdm
    rw [hdm] at hc
    rcases List.mem_map.mp hc with ⟨d, hd, hdl⟩
    have hdnode : isNodeOf vs d = true :=
      (List.mem_filter.mp hd).2
    rcases List.mem_map.mp ((isNodeOf_iff_mem vs d).mp hdnode) with
      ⟨u, hu, hun⟩
    exact ⟨u, hu, by rw [levelOf, hun, hdl]⟩

/-- Below an occupied level ℓ there are ℓ + 1 distinct nodes — one per
level — so every occupied level is below the number of validators. -/
theorem occupied_witness_list (vs : List VInfo) (hacyc : ¬ HasCycle vs) :
    ∀ k : Nat,
      (∃ v ∈ vs, levelOf (assignLevels vs) v.name = (k : Int)) →
      ∃ l : List String, l.Nodup ∧ l.length = k + 1 ∧
        (∀ x ∈ l, x ∈ nodeNames vs) ∧
        (∀ x ∈ l, levelOf (assignLevels vs) x ≤ (k : Int)) := by
  intro k
  induction k with
  | zero =>
    rintro ⟨v, hv, hlv⟩
    refine ⟨[v.name], by simp, by simp, ?_, ?_⟩
    · intro x hx
      rcases List.mem_singleton.mp hx with rfl
      exact List.mem_map.mpr ⟨v, hv, rfl⟩
    · intro x hx
      rcases List.mem_singleton.mp hx with rfl
      exact le_of_eq hlv
  | succ k ih =>
    rintro ⟨v, hv, hlv⟩
    have hlv' : levelOf (assignLevels vs) v.name = (k : Int) + 1 := by
      rw [hlv]; push_cast; ring
    rcases occupied_pred vs hacyc (k : Int) (by positivity)
      ⟨v, hv, hlv'⟩ with ⟨u, hu, hlu⟩
    rcases ih ⟨u, hu, hlu⟩ with ⟨l, hnd, hlen, hmem, hbound⟩
    have hvnotin : v.name ∉ l := by
      intro hc
      have := hbound v.name hc
      rw [hlv'] at this
      omega
    refine ⟨v.name :: l, List.nodup_cons.mpr ⟨hvnotin, hnd⟩, by simp [hlen],
      ?_, ?_⟩
    · intro x hx
      rcases List.mem_cons.mp hx with rfl | hx'
      · exact List.mem_map.mpr ⟨v, hv, rfl⟩
      · exact hmem x hx'
    · intro x hx
      rcases List.mem_cons.mp hx with rfl | hx'
      · rw [hlv']
        push_cast
        omega
      · have := hbound x hx'
        push_cast
        omega

theorem level_lt_length (vs : List VInfo) (hacyc : ¬ HasCycle vs)
    (v : VInfo) (hv : v ∈ vs) :
    levelOf (assignLevels vs) v.name < (vs.length : Int) := by
  have hnode : isNodeOf vs v.name = true :=
    (isNodeOf_iff_mem vs v.name).mpr (List.mem_map.mpr ⟨v, hv, rfl⟩)
  have hpos := level_nonneg vs hacyc v.name hnode
  set ℓ := levelOf (assignLevels vs) v.name with hℓ
  have hk : ℓ = ((ℓ.toNat : Nat) : Int) := by omega
  rcases occupied_witness_list vs hacyc ℓ.toNat ⟨v, hv, by omega⟩ with
    ⟨l, hnd, hlen, hmem, -⟩
  have hle := nodup_subset_length_le hnd hmem
  have : (nodeNames vs).length = vs.length := by simp [nodeNames]
  omega

/-- A validator whose level is below `start` is in no group emitted from
`start` onwards. -/
theorem groupsFrom_count_zero (vs : List VInfo) (t : List (String × Int)) :
    ∀ (fuel : Nat) (start : Int) (v : VInfo),
      levelOf t v.name < start →
      ((groupsFrom vs t fuel start).filter
        (fun g => v ∈ g.validators)).length = 0 := by
  intro fuel
  induction fuel with
  | zero => intro start v _; simp [groupsFrom]
  | succ fuel ih =>
    intro start v hlt
    simp only [groupsFrom]
    split
    · simp
    · rw [List.filter_cons]
      have hvnot : v ∉ sortByName
          (vs.filter (fun w => (lookupLvl t w.name).getD 0 = start)) := by
        rw [mem_sortByName]
        intro hc
        have := (List.mem_filter.mp hc).2
        simp only [decide_eq_true_eq] at this
        rw [levelOf] at hlt
        omega
      rw [if_neg (by simpa using hvnot)]
      exact ih (start + 1) v (by omega)

/-- Every validator lands in exactly one group: the one at its level. -/
theorem groupsFrom_count_one (vs : List VInfo) (t : List (String × Int)) :
    ∀ (fuel : Nat) (start : Int) (v : VInfo),
      v ∈ vs →
      start ≤ levelOf t v.name →
      (∀ k : Int, start ≤ k → k ≤ levelOf t v.name →
        ∃ u ∈ vs, levelOf t u.name = k) →
      levelOf t v.name < start + fuel →
      ((groupsFrom vs t fuel start).filter
        (fun g => v ∈ g.validators)).length = 1 := by
  intro fuel
  induction fuel with
  | zero => intro start v _ hge _ hlt; omega
  | succ fuel ih =>
    intro start v hv hge hocc hlt
    have hne : vs.filter (fun w => (lookupLvl t w.name).getD 0 = start) ≠ [] := by
      rcases hocc start le_rfl hge with ⟨u, hu, hlu⟩
      intro hc
      have : u ∈ vs.filter
          (fun w => (lookupLvl t w.name).getD 0 = start) :=
        List.mem_filter.mpr ⟨hu, by simpa [levelOf] using hlu⟩
      rw [hc] at this
      cases this
    simp only [groupsFrom]
    rw [if_neg hne, List.filter_cons]
    by_cases heq : levelOf t v.name = start
    · have hvin : v ∈ sortByName
          (vs.filter (fun w => (lookupLvl t w.name).getD 0 = start)) := by
        rw [mem_sortByName]
        exact List.mem_filter.mpr ⟨hv, by simpa [levelOf] using heq⟩
      rw [if_pos (by simpa using hvin)]
      simp only [List.length_cons]
      rw [groupsFrom_count_zero vs t fuel (start + 1) v (by omega)]
    · have hvnot : v ∉ sortByName
          (vs.filter (fun w => (lookupLvl t w.name).getD 0 = start)) := by
        rw [mem_sortByName]
        intro hc
        have := (List.mem_filter.mp hc).2
        simp only [decide_eq_true_eq] at this
        rw [levelOf] at heq
        exact heq this
      rw [if_neg (by simpa using hvnot)]
      exact ih (start + 1) v hv (by omega)
        (fun k hk1 hk2 => hocc k (by omega) hk2) (by omega)

/-- Every emitted group is sorted by name. -/
theorem groupsFrom_sorted (vs : List VInfo) (t : List (String × Int)) :
    ∀ (fuel : Nat) (start : Int) (g : ExecutionGroup),
      g ∈ groupsFrom vs t fuel start →
      g.validators.Pairwise (fun a b => a.name ≤ b.name) := by
  intro fuel
  induction fuel with
  | zero => intro start g hg; simp [groupsFrom] at hg
  | succ fuel ih =>
    intro start g hg
    simp only [groupsFrom] at hg
    split at hg
    · cases hg
    · rcases List.mem_cons.mp hg with rfl | hg'
      · exact sortByName_sorted _
      · exact ih (start + 1) g hg'

/-- Below an occupied level, every non-negative level is occupied. -/
theorem occupied_all_below (vs : List VInfo) (hacyc : ¬ HasCycle vs) :
    ∀ j : Nat,
      (∃ v ∈ vs, levelOf (assignLevels vs) v.name = (j : Int)) →
      ∀ k : Int, 0 ≤ k → k ≤ (j : Int) →
        ∃ u ∈ vs, levelOf (assignLevels vs) u.name = k := by
  intro j
  induction j with
  | zero =>
    rintro ⟨v, hv, hlv⟩ k hk0 hkj
    have hk : k = 0 := by
      push_cast at hkj
      omega
    refine ⟨v, hv, ?_⟩
    rw [hlv, hk]
    push_cast
  | succ j ih =>
    rintro ⟨v, hv, hlv⟩ k hk0 hkj
    by_cases hk : k = (j : Int) + 1
    · exact ⟨v, hv, by rw [hlv]; push_cast; omega⟩
    · have hlv' : levelOf (assignLevels vs) v.name = (j : Int) + 1 := by
        rw [hlv]; push_cast; ring
      rcases occupied_pred vs hacyc (j : Int) (by positivity) ⟨v, hv, hlv'⟩
        with ⟨u, hu, hlu⟩
      refine ih ⟨u, hu, hlu⟩ k hk0 ?_
      push_cast at hkj
      omega

/-- C4: on an acyclic input the resolver succeeds; every node's level is
0 when it has no present dependency and 1 + the maximum level of its
present dependencies otherwise; levels strictly decrease along every
followed `run_after` edge; every validator appears in exactly one
execution group; and within each group the validators are sorted by name
ascending. -/
theorem resolver_levels_spec (vs : List VInfo)
    (hnd : (nodeNames vs).Nodup) (hacyc : ¬ HasCycle vs) :
    ∃ groups, ResolveExecutionGroups vs = .ok groups ∧
      (∀ n, isNodeOf vs n = true →
        lookupLvl (assignLevels vs) n =
          some (depMax vs (assignLevels vs) n + 1) ∧
        (presentDeps vs n = [] → lookupLvl (assignLevels vs) n = some 0)) ∧
      (∀ a b, Edge vs a b →
        levelOf (assignLevels vs) b < levelOf (assignLevels vs) a) ∧
      (∀ v ∈ vs,
        (groups.filter (fun g => v ∈ g.validators)).length = 1) ∧
      (∀ g ∈ groups, g.validators.Pairwise (fun a b => a.name ≤ b.name)) := by
  rcases hd : detectCycles vs with ⟨u, d⟩ | u
  · exact absurd (detectCycles_error_spec vs u d hd).2.2 hacyc
  · cases u
    refine ⟨groupsFrom vs (assignLevels vs) (vs.length + 1) 0,
      by rw [ResolveExecutionGroups, hd], ?_, ?_, ?_, ?_⟩
    · intro n hn
      refine ⟨level_defining_eq vs hacyc n hn, ?_⟩
      intro hempty
      rw [level_defining_eq vs hacyc n hn, depMax, hempty]
      rfl
    · exact level_edge_lt vs hacyc
    · intro v hv
      have hnode : isNodeOf vs v.name = true :=
        (isNodeOf_iff_mem vs v.name).mpr (List.mem_map.mpr ⟨v, hv, rfl⟩)
      have hpos := level_nonneg vs hacyc v.name hnode
      have hlt := level_lt_length vs hacyc v hv
      refine groupsFrom_count_one vs (assignLevels vs) (vs.length + 1) 0 v
        hv hpos ?_ (by push_cast; omega)
      intro k hk0 hkl
      have hcast : levelOf (assignLevels vs) v.name =
          ((levelOf (assignLevels vs) v.name).toNat : Int) := by omega
      exact occupied_all_below vs hacyc
        (levelOf (assignLevels vs) v.name).toNat ⟨v, hv, hcast⟩ k hk0
        (by omega)
    · exact fun g hg => groupsFrom_sorted vs (assignLevels vs)
        (vs.length + 1) 0 g hg

/-- Validators and expected groups for the resolver witnesses: the chain
a ← b ← c resolves into three singleton groups in dependency order. -/
def rOKW : Result :=
  { validatorName := "", status := .success, reason := "OK", message := "ok" }

def vAW : VInfo := { name := "a", runAfter := [], enabled := true, res := rOKW }

def vBW : VInfo :=
  { name := "b", runAfter := ["a"], enabled := true, res := rOKW }

def vCW : VInfo :=
  { name := "c", runAfter := ["b"], enabled := true, res := rOKW }

def vsW : List VInfo := [vCW, vBW, vAW]

def groupsW : List ExecutionGroup :=
  [{ level := 0, validators := [vAW] },
   { level := 1, validators := [vBW] },
   { level := 2, validators := [vCW] }]

/-- Witness for `resolver_levels_spec` at the concrete chain `vsW`. -/
theorem resolver_levels_spec_witness :
    ResolveExecutionGroups vsW = .ok groupsW ∧
    (groupsW.filter (fun g => vBW ∈ g.validators)).length = 1 := by
  have h0 : ResolveExecutionGroups vsW = .ok groupsW := by rfl
  rcases resolver_levels_spec vsW (by decide)
      (detectCycles_ok_acyclic vsW (by rfl)) with ⟨groups, h1, -, -, h4, -⟩
  rw [h0] at h1
  have hg : groupsW = groups := Except.ok.inj h1
  refine ⟨h0, ?_⟩
  rw [hg]
  exact h4 vBW (by decide)

/-! ### Executor (src/unnamed/part_005)

`executeGroup` runs a group's validators concurrently and collects each
result in the slot of its validator's input position, so the group's
result list is the input-ordered list of per-validator results; the
sequential model maps over the group.  Timing (duration/timestamp
stamping) is outside the model; the `ValidatorName` stamp (line 138) is
kept.  Panic recovery is not exercised by the claims: each validator's
body is abstracted as the result it returns. -/

/-- One validator's execution (part_005 lines 131-138): the returned
result with `ValidatorName` overwritten from the metadata. -/
def runOne (v : VInfo) : Result :=
  { v.res with validatorName := v.name }

/-- The group loop of `ExecuteAll` (part_005 lines 64-85): append each
group's results; after a group, when `stopOnFirstFailure` is set and some
result of the group has status failure, return what has accumulated so
far. -/
def runGroups (stopOnFirstFailure : Bool) :
    List ExecutionGroup → List Result
  | [] => []
  | g :: gs =>
    let rs := g.validators.map runOne
    if stopOnFirstFailure = true ∧
        rs.any (fun r => r.status = .failure) = true then rs
    else rs ++ runGroups stopOnFirstFailure gs

/-- `ExecuteAll` (part_005 lines 28-86): filter enabled validators, fail
on zero enabled, resolve groups (wrapping a resolution error), then run
the groups. -/
def ExecuteAll (registered : List VInfo) (stopOnFirstFailure : Bool) :
    Except String (List Result) :=
  let enabled := registered.filter (fun v => v.enabled)
  if enabled.length = 0 then .error "no validators enabled"
  else
    match ResolveExecutionGroups enabled with
    | .error e => .error ("dependency resolution failed: " ++ e)
    | .ok groups => .ok (runGroups stopOnFirstFailure groups)

/-- A group with at least one failing result. -/
def groupFails (g : ExecutionGroup) : Bool :=
  (g.validators.map runOne).any (fun r => r.status = .failure)

theorem runGroups_no_stop (gs : List ExecutionGroup) :
    runGroups false gs = gs.flatMap (fun g => g.validators.map runOne) := by
  induction gs with
  | nil => simp [runGroups]
  | cons g gs ih =>
    rw [runGroups, if_neg (by simp)]
    simp [ih]

theorem runGroups_all_pass (gs : List ExecutionGroup)
    (h : ∀ g ∈ gs, groupFails g = false) :
    runGroups true gs = gs.flatMap (fun g => g.validators.map runOne) := by
  induction gs with
  | nil => simp [runGroups]
  | cons g gs ih =>
    have hg := h g (List.mem_cons_self _ _)
    rw [runGroups, if_neg (by
      rintro ⟨-, hfail⟩
      rw [groupFails] at hg
      rw [hg] at hfail
      exact Bool.false_ne_true hfail)]
    rw [ih (fun g' hg' => h g' (List.mem_cons_of_mem _ hg'))]
    simp

theorem runGroups_failfast (pre : List ExecutionGroup) :
    ∀ (g : ExecutionGroup) (post : List ExecutionGroup),
      (∀ p ∈ pre, groupFails p = false) →
      groupFails g = true →
      runGroups true (pre ++ g :: post) =
        (pre ++ [g]).flatMap (fun g => g.validators.map runOne) := by
  induction pre with
  | nil =>
    intro g post _ hg
    rw [List.nil_append, runGroups, if_pos ⟨rfl, hg⟩]
    simp
  | cons p pre ih =>
    intro g post hpre hg
    have hp := hpre p (List.mem_cons_self _ _)
    rw [List.cons_append, runGroups, if_neg (by
      rintro ⟨-, hfail⟩
      rw [groupFails] at hp
      rw [hp] at hfail
      exact Bool.false_ne_true hfail)]
    rw [ih g post (fun q hq => hpre q (List.mem_cons_of_mem _ hq)) hg]
    simp

/-- C8: with zero enabled validators (in particular with an empty
registry) `ExecuteAll` runs nothing and returns a nil result list with
the fatal error "no validators enabled". -/
theorem executeAll_no_validators (registered : List VInfo)
    (stopOnFirstFailure : Bool)
    (h : registered.filter (fun v => v.enabled) = []) :
    ExecuteAll registered stopOnFirstFailure =
      .error "no validators enabled" := by
  rw [ExecuteAll]
  simp [h]

/-- Witness for `executeAll_no_validators`: the empty registry, and a
registry whose only validator is disabled. -/
theorem executeAll_no_validators_witness :
    ExecuteAll [] true = .error "no validators enabled" ∧
    ExecuteAll [{ name := "a", runAfter := [], enabled := false,
                  res := rOKW }] false =
      .error "no validators enabled" :=
  ⟨executeAll_no_validators [] true (by decide),
   executeAll_no_validators _ false (by decide)⟩

/-- C7: with `stop_on_first_failure` set, as soon as a group completes
with a failing result, `ExecuteAll` returns (with nil error) exactly the
results accumulated through that group — the whole failing group
included — and no validator of any later group contributes a result;
with the flag off, every group runs. -/
theorem executeAll_failfast (registered : List VInfo)
    (groups : List ExecutionGroup)
    (hne : registered.filter (fun v => v.enabled) ≠ [])
    (hres : ResolveExecutionGroups (registered.filter (fun v => v.enabled)) =
      .ok groups) :
    (ExecuteAll registered false =
      .ok (groups.flatMap (fun g => g.validators.map runOne))) ∧
    (∀ pre g post, groups = pre ++ g :: post →
      (∀ p ∈ pre, groupFails p = false) →
      groupFails g = true →
      ExecuteAll registered true =
        .ok ((pre ++ [g]).flatMap (fun g => g.validators.map runOne))) ∧
    ((∀ g ∈ groups, groupFails g = false) →
      ExecuteAll registered true =
        .ok (groups.flatMap (fun g => g.validators.map runOne))) := by
  have hlen : ¬ (registered.filter (fun v => v.enabled)).length = 0 := by
    simpa [List.length_eq_zero] using hne
  refine ⟨?_, ?_, ?_⟩
  · rw [ExecuteAll]
    simp only [hlen, if_false, hres, reduceIte]
    rw [runGroups_no_stop]
  · intro pre g post hsplit hpre hg
    rw [ExecuteAll]
    simp only [hlen, if_false, hres, reduceIte]
    rw [hsplit, runGroups_failfast pre g post hpre hg]
  · intro hall
    rw [ExecuteAll]
    simp only [hlen, if_false, hres, reduceIte]
    rw [runGroups_all_pass groups hall]

/-- Validators for the fail-fast witness: x fails at level 0, y (after x)
would succeed at level 1. -/
def vXW : VInfo :=
  { name := "x", runAfter := [], enabled := true,
    res := { validatorName := "", status := .failure,
             reason := "Bad", message := "m" } }

def vYW : VInfo :=
  { name := "y", runAfter := ["x"], enabled := true, res := rOKW }

/-- Witness for `executeAll_failfast`: with fail-fast on, only x runs and
its stamped result is returned with no error; y's group never starts. -/
theorem executeAll_failfast_witness :
    ExecuteAll [vXW, vYW] true =
      .ok [{ validatorName := "x", status := .failure,
             reason := "Bad", message := "m" }] := by
  have h := (executeAll_failfast [vXW, vYW]
    [{ level := 0, validators := [vXW] },
     { level := 1, validators := [vYW] }]
    (by decide) (by rfl)).2.1
    [] { level := 0, validators := [vXW] }
    [{ level := 1, validators := [vYW] }] rfl (by simp) (by rfl)
  rw [h]
  rfl

end AdapterValidationGCP
